import Mathlib

/-!
Verification development for the fmptools FileMaker Pro decoder.

The definitions below are a shallow embedding of the C sources:
* `src/src/bin/fmp2sqlite_optimized.c` — the core decoder (`read_header`,
  `path_value`, `process_chunk`, `process_chunk_chain`, `process_blocks`,
  `fmp_open_file_mmap`, `fmp_open_file`, `process_value_for_table`,
  `fmp_read_all_values` and friends),
* `src/unnamed/part_000` — metadata discovery (`fmp_discover_all_metadata`,
  `handle_table`, `handle_column`, compaction).

Bytes are modelled as `Nat` (values < 256 in practice); C pointers that may
be NULL are modelled with `Option`; the NULL path-segment pointer is modelled
by the empty byte list (both decode to 0 in `path_value`).
-/

namespace Fmp

/-- Error codes of the library (`fmp_error_t`), restricted to the ones the
embedded operations can produce. -/
inductive FmpError where
  | read
  | badMagicNumber
  | badSector
  | badSectorCount
  | userAborted
  deriving DecidableEq, Repr

/-- Result of a traversal pass: `FMP_OK` or an error code. -/
inductive FmpRes where
  | ok
  | err (e : FmpError)
  deriving DecidableEq, Repr

/-- Character-set converter handle attached to the file context.
`iconv_open` calls are modelled by the charset pair they request;
`none` models a NULL converter (the v7+ SCSU path). -/
inductive Converter where
  | none
  | macintosh
  | windows1252
  deriving DecidableEq, Repr

/-- The format-parameter fields of `fmp_file_t` that the two open paths
(`read_header` for the stream backend, `fmp_open_file_mmap` for the mapped
backend) configure.  A fresh context is zero-initialised (`calloc`). -/
structure FileConfig where
  sectorSize : Nat := 0
  xorMask : Nat := 0
  prevSectorOffset : Nat := 0
  nextSectorOffset : Nat := 0
  payloadLenOffset : Int := 0
  sectorHeadLen : Nat := 0
  sectorIndexShift : Nat := 0
  versionNum : Nat := 0
  converter : Converter := .none
  deriving DecidableEq, Repr

/-- The 15-byte magic signature `MAGICK` checked by both open paths. -/
def magick : List Nat :=
  [0x00, 0x01, 0x00, 0x00, 0x00, 0x02, 0x00, 0x01, 0x00, 0x05, 0x00, 0x02, 0x00, 0x02, 0xC0]

/-- `memcmp(buf, MAGICK, 15) == 0`. -/
def magicMatch (buf : List Nat) : Bool :=
  decide ((List.range 15).all (fun i => buf.getD i 0 = magick.getD i 0))

/-- `memcmp(&buf[15], tag, 5) == 0` for a 5-byte tag. -/
def tagIs (buf : List Nat) (tag : List Nat) : Bool :=
  decide ((List.range 5).all (fun i => buf.getD (15 + i) 0 = tag.getD i 0))

/-- ASCII bytes of `"HBAM7"`. -/
def tagHBAM7 : List Nat := [72, 66, 65, 77, 55]

/-- ASCII bytes of `"HBAM3"`. -/
def tagHBAM3 : List Nat := [72, 66, 65, 77, 51]

/-- ASCII bytes of `"HBAM5"`. -/
def tagHBAM5 : List Nat := [72, 66, 65, 77, 53]

/-- `read_header` — header parsing of the stream backend
(`fmp2sqlite_optimized.c` lines 647–695).  Reads the first 1024 bytes,
checks the magic, and configures the file context.  In the non-`HBAM7`
branch the code unconditionally opens a `MACINTOSH` converter and leaves
`version_num` at its zero initialisation; `iconv_open` is assumed to
succeed.  (The version-date/version-string extraction and the stream
repositioning are side effects that do not influence decoding and are not
modelled.) -/
def readHeader (buf : List Nat) : Except FmpError FileConfig :=
  if buf.length < 1024 then .error .read
  else if ¬ magicMatch buf then .error .badMagicNumber
  else if tagIs buf tagHBAM7 then
    .ok { sectorSize := 4096, xorMask := 0x5A,
          prevSectorOffset := 4, nextSectorOffset := 8,
          payloadLenOffset := -1, sectorHeadLen := 20,
          versionNum := if buf.getD 521 0 = 0x1E then 12 else 7,
          converter := .none }
  else
    .ok { sectorSize := 1024,
          prevSectorOffset := 2, nextSectorOffset := 6,
          payloadLenOffset := 12, sectorHeadLen := 14,
          sectorIndexShift := 1,
          versionNum := 0,
          converter := .macintosh }

/-- The header-parsing portion of `fmp_open_file_mmap`
(`fmp2sqlite_optimized.c` lines 1086–1118): magic check, then `HBAM7`
versus the pre-v7 branch, which sets `prev_sector_offset = 4`,
`next_sector_offset = 8`, `sector_index_shift = 9` and distinguishes
`HBAM3` (MACINTOSH) from `HBAM5` (WINDOWS-1252). -/
def mmapReadHeader (buf : List Nat) : Except FmpError FileConfig :=
  if ¬ magicMatch buf then .error .badMagicNumber
  else if tagIs buf tagHBAM7 then
    .ok { sectorSize := 4096, xorMask := 0x5A,
          prevSectorOffset := 4, nextSectorOffset := 8,
          payloadLenOffset := -1, sectorHeadLen := 20,
          versionNum := if buf.getD 521 0 = 0x1E then 12 else 7,
          converter := .none }
  else
    let base : FileConfig :=
      { sectorSize := 1024, xorMask := 0x00,
        sectorIndexShift := 9,
        prevSectorOffset := 4, nextSectorOffset := 8,
        payloadLenOffset := 12, sectorHeadLen := 14 }
    if tagIs buf tagHBAM3 then
      .ok { base with versionNum := 3, converter := .macintosh }
    else if tagIs buf tagHBAM5 then
      .ok { base with versionNum := 5, converter := .windows1252 }
    else
      .ok base

/-- A concrete 1024-byte header of an fp5 file: the magic signature,
`"HBAM5"` at bytes 15..19, zeros elsewhere. -/
def hbam5Header : List Nat := magick ++ tagHBAM5 ++ List.replicate 1004 0

/-- A concrete 1024-byte header of an fp7 file: the magic signature,
`"HBAM7"` at bytes 15..19, zeros elsewhere (byte 521 = 0, so version 7). -/
def hbam7Header : List Nat := magick ++ tagHBAM7 ++ List.replicate 1004 0

/-- `path_value` (`fmp2sqlite_optimized.c` lines 697–710): the integer
value of a path segment.  The NULL-pointer case `!path → 0` is folded
into the empty-list case (both yield 0). -/
def pathValue (versionNum : Nat) (seg : List Nat) : Nat :=
  match seg with
  | [b0] => b0
  | [b0, b1] => 0x80 + ((b0 &&& 0x7F) <<< 8) + b1
  | [b0, b1, b2] =>
      if versionNum < 7 then
        0xC000 + ((b0 &&& 0x3F) <<< 16) + (b1 <<< 8) + b2
      else
        0x80 + (b1 <<< 8) + b2
  | _ => 0

/-- The path-decoding rule as worded in the specification (§4.5), written
independently from `pathValue` for comparison: case on the number of bytes
`n`, with the versioned 3-byte rules, and 0 for any other length. -/
def pathValueSpec (versionNum : Nat) (seg : List Nat) : Nat :=
  if seg.length = 1 then seg.getD 0 0
  else if seg.length = 2 then
    0x80 + ((seg.getD 0 0 &&& 0x7F) <<< 8) + seg.getD 1 0
  else if seg.length = 3 then
    if 7 ≤ versionNum then 0x80 + (seg.getD 1 0 <<< 8) + seg.getD 2 0
    else 0xC000 + ((seg.getD 0 0 &&& 0x3F) <<< 16) + (seg.getD 1 0 <<< 8) + seg.getD 2 0
  else 0

/-- `path_is` (`fmp2sqlite_optimized.c` line 712). -/
def pathIs (versionNum : Nat) (seg : List Nat) (value : Nat) : Bool :=
  pathValue versionNum seg = value

/-- The chunk-type codes relevant to the dispatcher and the consumers
(`FMP_CHUNK_PATH_PUSH`, `FMP_CHUNK_PATH_POP`, `FMP_CHUNK_FIELD_REF_SIMPLE`,
`FMP_CHUNK_DATA_SEGMENT`); all remaining NOOP-ish kinds are collapsed into
one constructor, since every embedded routine treats them alike. -/
inductive ChunkType where
  | pathPush
  | pathPop
  | fieldRefSimple
  | dataSegment
  | noop
  deriving DecidableEq, Repr

/-- One decoded chunk as produced by the (black-box) chunk tokenizer:
its type, data bytes, `ref_simple` and `segment_index` fields. -/
structure FmpChunk where
  ctype : ChunkType
  data : List Nat
  refSimple : Nat
  segmentIndex : Nat
  deriving DecidableEq, Repr

/-- A chunk annotated by `process_chunk`: the consumer observes
`chunk->path` (a pointer into the live path array, read after the chunk's
own push/pop was applied), `chunk->path_level` (the depth recorded before
applying it) and `chunk->version_num`.  `path_level` is carried as `Int`
so that its nonnegativity is a provable invariant rather than a typing
artifact. -/
structure AnnChunk where
  chunk : FmpChunk
  path : List (List Nat)
  pathLevel : Int
  versionNum : Nat
  deriving DecidableEq, Repr

/-- `chunk_status_t`. -/
inductive ChunkStatus where
  | next
  | done
  | abort
  deriving DecidableEq, Repr

/-- The path-stack portion of the file context: the segment array
(`file->path`, stale entries beyond the current depth persist, NULL
entries are the empty list) and the current depth (`file->path_level`). -/
structure PathState where
  pathArr : List (List Nat)
  pathLevel : Int
  deriving DecidableEq, Repr

/-- Write `x` at position `i` of the path array, growing it as needed
(`file->path[file->path_level] = &chunk->data` after the capacity check);
positions created by growth read as NULL (the empty list). -/
def listSet : List (List Nat) → Nat → List Nat → List (List Nat)
  | _ :: t, 0, x => x :: t
  | [], 0, x => [x]
  | [], n + 1, x => [] :: listSet [] n x
  | h :: t, n + 1, x => h :: listSet t n x

/-- `process_chunk` (`fmp2sqlite_optimized.c` lines 771–786) without the
consumer call: annotate the chunk with the current path and depth, then
apply its push or pop to the file context.  A `PATH_POP` at depth 0 is a
no-op (`if (file->path_level) file->path_level--`). -/
def processChunk (versionNum : Nat) (ps : PathState) (c : FmpChunk) : AnnChunk × PathState :=
  let recorded := ps.pathLevel
  let ps' :=
    match c.ctype with
    | .pathPop => if ps.pathLevel ≠ 0 then { ps with pathLevel := ps.pathLevel - 1 } else ps
    | .pathPush =>
        { pathArr := listSet ps.pathArr ps.pathLevel.toNat c.data,
          pathLevel := ps.pathLevel + 1 }
    | _ => ps
  (⟨c, ps'.pathArr, recorded, versionNum⟩, ps')

/-- The loop body of `process_chunk_chain` (lines 791–799): deliver each
chunk to the consumer, stopping on `DONE` (returning `FMP_OK`) or `ABORT`
(returning `FMP_ERROR_USER_ABORTED`).  Returns the trace of delivered
chunks paired with the status the consumer returned for each. -/
def processChunkChainAux {σ : Type} (handler : σ → AnnChunk → σ × ChunkStatus)
    (versionNum : Nat) :
    PathState → σ → List FmpChunk →
      List (AnnChunk × ChunkStatus) × PathState × σ × FmpRes
  | ps, s, [] => ([], ps, s, .ok)
  | ps, s, c :: rest =>
    let ann := (processChunk versionNum ps c).1
    let ps' := (processChunk versionNum ps c).2
    let s' := (handler s ann).1
    match (handler s ann).2 with
    | .abort => ([(ann, .abort)], ps', s', .err .userAborted)
    | .done => ([(ann, .done)], ps', s', .ok)
    | .next =>
      let r := processChunkChainAux handler versionNum ps' s' rest
      ((ann, .next) :: r.1, r.2.1, r.2.2.1, r.2.2.2)

/-- `process_chunk_chain` (lines 788–801): reset the path depth to 0
(the path is per block), then run the chain. -/
def processChunkChain {σ : Type} (handler : σ → AnnChunk → σ × ChunkStatus)
    (versionNum : Nat) (ps : PathState) (s : σ) (chunks : List FmpChunk) :
    List (AnnChunk × ChunkStatus) × PathState × σ × FmpRes :=
  processChunkChainAux handler versionNum { ps with pathLevel := 0 } s chunks

/-- A decoded block: its forward link and its chunk chain.
Modelled from the spec: the block/chunk decoder (`new_block_from_sector`,
`process_block`) is not among the sources; per §4.3–§4.4 it is a pure,
deterministic tokenizer, so blocks here carry their decoded chunk list
and `process_block` always reports `FMP_OK`. -/
structure FmpBlock where
  nextId : Nat
  chunks : List FmpChunk
  deriving DecidableEq, Repr

/-- The traversal loop of `process_blocks` (lines 849–935), with
`handle_block = NULL` as in both library entry points.  `iterLeft` is the
remaining budget of the `max_iterations = 2 * num_blocks` safety cap;
`visited` is the loop-detection array, maintained only when
`num_blocks < 100000` as in the source.  Returns the global trace of
delivered chunks (with consumer statuses), the final consumer state and
the traversal result. -/
def processBlocksAux {σ : Type} (handler : σ → AnnChunk → σ × ChunkStatus)
    (versionNum : Nat) (blocks : List FmpBlock) (numBlocks : Nat) :
    Nat → Nat → List Nat → PathState → σ →
      List (AnnChunk × ChunkStatus) × σ × FmpRes
  | iterLeft, nextBlock, visited, ps, s =>
    match blocks.get? (nextBlock - 1) with
    | none => ([], s, .err .badSector)
    | some b =>
      if numBlocks < 100000 ∧ nextBlock - 1 < numBlocks ∧ (nextBlock - 1) ∈ visited then
        ([], s, .ok)
      else
        let visited' :=
          if numBlocks < 100000 ∧ nextBlock - 1 < numBlocks then
            (nextBlock - 1) :: visited
          else visited
        let cr := processChunkChain handler versionNum ps s b.chunks
        match iterLeft with
        | 0 => (cr.1, cr.2.2.1, cr.2.2.2)
        | k + 1 =>
          if b.nextId ≠ 0 ∧ b.nextId - 1 < numBlocks ∧ cr.2.2.2 = .ok then
            let r2 := processBlocksAux handler versionNum blocks numBlocks
              k b.nextId visited' cr.2.1 cr.2.2.1
            (cr.1 ++ r2.1, r2.2.1, r2.2.2)
          else (cr.1, cr.2.2.1, cr.2.2.2)

/-- `process_blocks` entry: traversal starts at block ordinal 2
(`int next_block = 2`), with an empty visited set, a fresh path state and
the iteration budget `2 * num_blocks`. -/
def processBlocks {σ : Type} (handler : σ → AnnChunk → σ × ChunkStatus)
    (versionNum : Nat) (blocks : List FmpBlock) (numBlocks : Nat) (s : σ) :
    List (AnnChunk × ChunkStatus) × σ × FmpRes :=
  processBlocksAux handler versionNum blocks numBlocks (2 * numBlocks) 2 [] ⟨[], 0⟩ s

/-- `fmp_column_t`: 1-based (not necessarily dense) index, name, type
code and collation byte. -/
structure FmpColumn where
  index : Nat
  utf8Name : List Nat
  colType : Nat
  collation : Nat
  deriving DecidableEq, Repr

/-- `fmp_table_t`: 1-based index, name and skip flag. -/
structure FmpTable where
  index : Nat
  utf8Name : List Nat
  skip : Bool
  deriving DecidableEq, Repr

/-- `table_read_state_t`: the per-table row-assembly state of
`fmp_read_all_values`.  `longStringBuf` models the used portion of the
accumulator (`long_string_buf` / `long_string_used`); `columns` is the
possibly-NULL pointer to the table's column array. -/
structure TableReadState where
  currentRow : Nat := 0
  lastRow : Nat := 0
  lastColumn : Nat := 0
  longStringBuf : List Nat := []
  columns : Option (List FmpColumn) := none
  deriving DecidableEq, Repr

/-- Read `chunk->path[i]`; entries beyond the array read as NULL. -/
def pget (ann : AnnChunk) (i : Nat) : List Nat := ann.path.getD i []

/-- Read `chunk->path[i]` at a possibly negative index (the source only
does this under guards that keep it in range). -/
def pgetI (ann : AnnChunk) (i : Int) : List Nat :=
  if i < 0 then [] else ann.path.getD i.toNat []

/-- `table_path_depth` (lines 748–752). -/
def tablePathDepth (ann : AnnChunk) : Int :=
  if ann.versionNum < 7 then ann.pathLevel else ann.pathLevel - 1

/-- `table_path_match_start1` (lines 754–760). -/
def tablePathMatchStart1 (ann : AnnChunk) (depth : Int) (val : Nat) : Bool :=
  if tablePathDepth ann ≠ depth then false
  else if ann.versionNum < 7 then pathIs ann.versionNum (pget ann 0) val
  else decide (128 ≤ pathValue ann.versionNum (pget ann 0)) &&
    pathIs ann.versionNum (pget ann 1) val

/-- `table_path_match_start2` (lines 762–769). -/
def tablePathMatchStart2 (ann : AnnChunk) (depth : Int) (val1 val2 : Nat) : Bool :=
  if tablePathDepth ann ≠ depth then false
  else if ann.versionNum < 7 then
    pathIs ann.versionNum (pget ann 0) val1 && pathIs ann.versionNum (pget ann 1) val2
  else
    decide (128 ≤ pathValue ann.versionNum (pget ann 0)) &&
      pathIs ann.versionNum (pget ann 1) val1 && pathIs ann.versionNum (pget ann 2) val2

/-- `path_is_table_data` (line 353). -/
def pathIsTableData (ann : AnnChunk) : Bool := tablePathMatchStart1 ann 2 5

/-- `path_row` (lines 357–361). -/
def pathRow (ann : AnnChunk) : Nat :=
  if ann.versionNum < 7 then pathValue ann.versionNum (pget ann 1)
  else pathValue ann.versionNum (pget ann 2)

/-- `path_is_long_string` (lines 363–371). -/
def pathIsLongString (ann : AnnChunk) (st : TableReadState) : Bool :=
  if ¬ tablePathMatchStart1 ann 3 5 then false
  else
    let columnIndex := pathValue ann.versionNum
      (pget ann (if ann.versionNum < 7 then 2 else 3))
    if st.lastColumn = 0 ∨ columnIndex < st.lastColumn then
      decide (st.lastRow < pathRow ann)
    else decide (pathRow ann = st.lastRow)

/-- `convert` (lines 716–746): XOR-demask the input, trim leading spaces,
then convert the bytes to UTF-8.  Modelled from the spec: the charset
conversion itself (`iconv` or `convert_scsu_to_utf8`) is an external
decoder not among the sources; §4.7 specifies the shared routine as
demask + trim + convert, and the conversion stage is modelled as the
identity on the byte sequence. -/
def convertBytes (xorMask : Nat) (src : List Nat) : List Nat :=
  (src.map (fun b => b ^^^ xorMask)).dropWhile (fun b => b = 32)

/-- `fmp_handler_status_t`: the value callback's answer. -/
inductive HandlerStatus where
  | ok
  | abort
  deriving DecidableEq, Repr

/-- One invocation of the value callback:
`(table_index, row, column, utf8_value)`. -/
structure Emission where
  tableIndex : Nat
  row : Nat
  column : FmpColumn
  value : List Nat
  deriving DecidableEq, Repr

/-- The column-resolution phase of `process_value_for_table`
(lines 382–394): the resolved column index of a chunk, given the table's
column count.  Long-string chunks resolve through the innermost path
segment; table-data chunks resolve through `ref_simple` (bounded, and
excluding the reserved sentinel 252) or `segment_index` (bounded);
anything else resolves to 0. -/
def resolvedColumnIndex (ann : AnnChunk) (st : TableReadState) (count : Nat) : Nat :=
  if pathIsLongString ann st then
    pathValue ann.versionNum (pgetI ann (ann.pathLevel - 1))
  else if pathIsTableData ann then
    if ann.chunk.ctype = .fieldRefSimple ∧ ann.chunk.refSimple ≤ count ∧
        ann.chunk.refSimple ≠ 252 then
      ann.chunk.refSimple
    else if ann.chunk.ctype = .dataSegment ∧ ann.chunk.segmentIndex ≤ count then
      ann.chunk.segmentIndex
    else 0
  else 0

/-- The flush-boundary step of `process_value_for_table` (lines 412–431):
when the column changed and the long-string buffer is non-empty, emit the
buffered bytes with the previous column, then clear the buffer.  The
`Bool` result records whether the callback aborted the flush (in which
case the buffer is left uncleared, as in the source, which returns before
`state->long_string_used = 0`). -/
def pvtFlush {κ : Type} (cb : κ → Emission → κ × HandlerStatus) (xorMask : Nat)
    (tableIndex : Nat) (cols : List FmpColumn) (st : TableReadState) (k : κ)
    (column : FmpColumn) :
    TableReadState × κ × List (Emission × HandlerStatus) × Bool :=
  if column.index ≠ st.lastColumn ∧ st.longStringBuf ≠ [] then
    if 0 < st.lastColumn then
      match cols.find? (fun c => c.index = st.lastColumn) with
      | some lastCol =>
        let em : Emission :=
          ⟨tableIndex, st.currentRow, lastCol, convertBytes xorMask st.longStringBuf⟩
        match (cb k em).2 with
        | .abort => (st, (cb k em).1, [(em, .abort)], true)
        | .ok => ({ st with longStringBuf := [] }, (cb k em).1, [(em, .ok)], false)
      | none => ({ st with longStringBuf := [] }, k, [], false)
    else ({ st with longStringBuf := [] }, k, [], false)
  else (st, k, [], false)

/-- `process_value_for_table` (lines 373–463): resolve the chunk's
column, flush a pending long string on column change, advance the row
counter when the row path or column order indicates a new row, then
either accumulate a long-string fragment or emit a regular value.
Returns the new table state, the new callback state, the emissions made
(paired with the callback's answers) and the chunk status.  The value
callback (`ctx->handle_value`) is taken to be present, as in both CLI
entry points. -/
def processValueForTable {κ : Type} (cb : κ → Emission → κ × HandlerStatus)
    (xorMask : Nat) (tableIndex : Nat) (st : TableReadState) (k : κ) (ann : AnnChunk) :
    TableReadState × κ × List (Emission × HandlerStatus) × ChunkStatus :=
  match st.columns with
  | none => (st, k, [], .next)
  | some cols =>
    if pathIsLongString ann st ∧ ann.chunk.ctype = .fieldRefSimple ∧
        ann.chunk.refSimple = 0 then
      (st, k, [], .next)
    else
      let longString := pathIsLongString ann st
      let columnIndex := resolvedColumnIndex ann st cols.length
      if columnIndex = 0 ∨ cols.length < columnIndex then (st, k, [], .next)
      else
        match cols.find? (fun c => c.index = columnIndex) with
        | none => (st, k, [], .next)
        | some column =>
          let fl := pvtFlush cb xorMask tableIndex cols st k column
          if fl.2.2.2 then (fl.1, fl.2.1, fl.2.2.1, .abort)
          else
            let st1 := fl.1
            let k1 := fl.2.1
            let ems := fl.2.2.1
            let st2 :=
              if pathRow ann ≠ st1.lastRow ∨ column.index < st1.lastColumn then
                { st1 with currentRow := st1.currentRow + 1 }
              else st1
            if longString then
              ({ st2 with longStringBuf := st2.longStringBuf ++ ann.chunk.data,
                          lastRow := pathRow ann, lastColumn := column.index },
                k1, ems, .next)
            else
              let em : Emission :=
                ⟨tableIndex, st2.currentRow, column, convertBytes xorMask ann.chunk.data⟩
              match (cb k1 em).2 with
              | .abort => (st2, (cb k1 em).1, ems ++ [(em, .abort)], .abort)
              | .ok =>
                ({ st2 with lastRow := pathRow ann, lastColumn := column.index },
                  (cb k1 em).1, ems ++ [(em, .ok)], .next)

/-- Feeding one table's chunks through `process_value_for_table` in
sequence, stopping at an abort, exactly as the dispatcher does for the
chunks it routes to this table. -/
def processValueRun {κ : Type} (cb : κ → Emission → κ × HandlerStatus)
    (xorMask : Nat) (tableIndex : Nat) :
    TableReadState → κ → List AnnChunk →
      TableReadState × κ × List (Emission × HandlerStatus) × ChunkStatus
  | st, k, [] => (st, k, [], .next)
  | st, k, ann :: rest =>
    let r := processValueForTable cb xorMask tableIndex st k ann
    match r.2.2.2 with
    | .abort => (r.1, r.2.1, r.2.2.1, .abort)
    | _ =>
      let r2 := processValueRun cb xorMask tableIndex r.1 r.2.1 rest
      (r2.1, r2.2.1, r.2.2.1 ++ r2.2.2.1, r2.2.2.2)

/-- The end-of-traversal flush for one table state (`fmp_read_all_values`
cleanup, lines 536–561): a pending long string is emitted with
`last_column` and `current_row`; the callback's answer is recorded but
ignored by the caller. -/
def finalFlush {κ : Type} (cb : κ → Emission → κ × HandlerStatus) (xorMask : Nat)
    (tableIndex : Nat) (st : TableReadState) (k : κ) :
    κ × List (Emission × HandlerStatus) :=
  if st.longStringBuf ≠ [] then
    match st.columns with
    | some cols =>
      match cols.find? (fun c => c.index = st.lastColumn) with
      | some lastCol =>
        let em : Emission :=
          ⟨tableIndex, st.currentRow, lastCol, convertBytes xorMask st.longStringBuf⟩
        ((cb k em).1, [(em, (cb k em).2)])
      | none => (k, [])
    | none => (k, [])
  else (k, [])

/-- `fmp_metadata_t`: the table list, the per-table-index column map
(`columns[i]`, a possibly-NULL pointer per key), and its capacity. -/
structure FmpMetadata where
  tables : List FmpTable
  columns : Nat → Option (List FmpColumn)
  columnsCapacity : Nat

/-- The traversal context of `fmp_read_all_values`
(`fmp_read_all_values_ctx_t`): per-table read states (zero-initialised on
growth), the grown capacity, the callback's own state and the trace of
all callback invocations made during dispatch. -/
structure RAVState (κ : Type) where
  states : Nat → TableReadState
  capacity : Nat
  k : κ
  emTrace : List (Emission × HandlerStatus)

/-- `ensure_table_state` (lines 337–351): grow the state array to cover
`table_index` (by `table_index + 128`), then attach the table's column
array from the metadata if the state has none yet. -/
def ensureTableState {κ : Type} (md : FmpMetadata) (rs : RAVState κ) (ti : Nat) :
    RAVState κ :=
  let cap' := if rs.capacity ≤ ti then ti + 128 else rs.capacity
  let st := rs.states ti
  let st' :=
    if st.columns = none ∧ ti < md.columnsCapacity ∧ (md.columns ti).isSome then
      { st with columns := md.columns ti }
    else st
  { rs with capacity := cap',
            states := fun j => if j = ti then st' else rs.states j }

/-- Deliver the emissions and status of one `process_value_for_table`
call into the traversal context. -/
def ravApply {κ : Type} (rs : RAVState κ) (ti : Nat)
    (r : TableReadState × κ × List (Emission × HandlerStatus) × ChunkStatus) :
    RAVState κ × ChunkStatus :=
  ({ rs with states := fun j => if j = ti then r.1 else rs.states j,
             k := r.2.1, emTrace := rs.emTrace ++ r.2.2.1 }, r.2.2.2)

/-- `handle_chunk_read_all_values_v7` (lines 465–496): route the chunk to
the table named by `path[0] − 128`, skipping non-table paths, unknown or
skipped tables and non-value chunk types. -/
def handleChunkReadAllValuesV7 {κ : Type} (cb : κ → Emission → κ × HandlerStatus)
    (xorMask : Nat) (md : FmpMetadata) (rs : RAVState κ) (ann : AnnChunk) :
    RAVState κ × ChunkStatus :=
  let path0 := pathValue ann.versionNum (pget ann 0)
  if path0 < 128 then (rs, .next)
  else
    let ti := path0 - 128
    match md.tables.find? (fun t => t.index = ti) with
    | none => (rs, .next)
    | some table =>
      if table.skip then (rs, .next)
      else
        let rs1 := ensureTableState md rs ti
        if ann.chunk.ctype ≠ .fieldRefSimple ∧ ann.chunk.ctype ≠ .dataSegment then
          (rs1, .next)
        else
          ravApply rs1 ti (processValueForTable cb xorMask ti (rs1.states ti) rs1.k ann)

/-- `handle_chunk_read_all_values_v3` (lines 498–510): pre-v7 files have
a single table at index 1; chunks with `path[0] > 3` are not table
data. -/
def handleChunkReadAllValuesV3 {κ : Type} (cb : κ → Emission → κ × HandlerStatus)
    (xorMask : Nat) (md : FmpMetadata) (rs : RAVState κ) (ann : AnnChunk) :
    RAVState κ × ChunkStatus :=
  if 3 < pathValue ann.versionNum (pget ann 0) then (rs, .next)
  else
    let rs1 := ensureTableState md rs 1
    if ann.chunk.ctype ≠ .fieldRefSimple ∧ ann.chunk.ctype ≠ .dataSegment then
      (rs1, .next)
    else
      ravApply rs1 1 (processValueForTable cb xorMask 1 (rs1.states 1) rs1.k ann)

/-- `handle_chunk_read_all_values` (lines 512–520). -/
def handleChunkReadAllValues {κ : Type} (cb : κ → Emission → κ × HandlerStatus)
    (xorMask : Nat) (md : FmpMetadata) (rs : RAVState κ) (ann : AnnChunk) :
    RAVState κ × ChunkStatus :=
  if 7 ≤ ann.versionNum then handleChunkReadAllValuesV7 cb xorMask md rs ann
  else handleChunkReadAllValuesV3 cb xorMask md rs ann

/-- `fmp_read_all_values` (lines 522–567): run the block traversal with
the read-all consumer, then flush pending long strings table by table
(the flush runs regardless of the traversal's result, and its callback
answers are ignored).  Returns the chunk trace, the final traversal
context, the returned status, and the cleanup-flush emissions. -/
def readAllValues {κ : Type} (cb : κ → Emission → κ × HandlerStatus)
    (xorMask versionNum : Nat) (md : FmpMetadata) (blocks : List FmpBlock)
    (numBlocks : Nat) (k0 : κ) :
    List (AnnChunk × ChunkStatus) × RAVState κ × FmpRes ×
      List (Emission × HandlerStatus) :=
  let pb := processBlocks (handleChunkReadAllValues cb xorMask md) versionNum
    blocks numBlocks ⟨fun _ => {}, 0, k0, []⟩
  let rsf := pb.2.1
  let ff := (List.range rsf.capacity).foldl
    (fun (acc : κ × List (Emission × HandlerStatus)) i =>
      let f := finalFlush cb xorMask i (rsf.states i) acc.1
      (f.1, acc.2 ++ f.2))
    (rsf.k, [])
  (pb.1, rsf, pb.2.2, ff.2)

/-- The in-flight state of the table-compaction loop of
`fmp_discover_all_metadata` (part_000 lines 203–224): the compacted
prefix written so far (`out`, whose length is the loop's `j`), the
columns map and its capacity. -/
structure CompactState where
  out : List FmpTable
  cols : Nat → Option (List FmpColumn)
  cap : Nat

/-- One iteration of the table-compaction loop at slot `i`: keep a table
with nonzero index, moving it (and re-keying its column array from key
`i + 1` to key `j + 1`, NULLing the old key) when `i ≠ j`.  The
`ensure_columns_capacity(metadata, j + 1)` call guarded by
`j + 1 >= columns_capacity` is inlined (capacity growth by 128 and
allocation of an empty array at the key, both immediately overwritten by
the re-key assignment). -/
def compactTablesStep (st : CompactState) (i : Nat) (tb : FmpTable) : CompactState :=
  if tb.index ≠ 0 then
    if i ≠ st.out.length then
      let st1 :=
        if i + 1 < st.cap ∧ (st.cols (i + 1)).isSome then
          let st2 : CompactState :=
            if st.cap ≤ st.out.length + 1 then
              { st with
                cap := st.out.length + 1 + 128,
                cols := fun j =>
                  if j = st.out.length + 1 ∧ (st.cols (st.out.length + 1)).isNone then
                    some []
                  else st.cols j }
            else st
          { st2 with cols := fun j =>
              if j = st.out.length + 1 then st2.cols (i + 1)
              else if j = i + 1 then none
              else st2.cols j }
        else st
      { st1 with out := st1.out ++ [tb] }
    else { st with out := st.out ++ [tb] }
  else st

/-- The table-compaction phase of `fmp_discover_all_metadata`
(part_000 lines 203–224): fold the loop body over the enumerated table
array, then truncate the table count to the kept prefix. -/
def compactTables (m : FmpMetadata) : FmpMetadata :=
  let st := m.tables.enum.foldl (fun s p => compactTablesStep s p.1 p.2)
    { out := [], cols := m.columns, cap := m.columnsCapacity }
  { tables := st.out, columns := st.cols, columnsCapacity := st.cap }

/-- The in-place nonzero-index compaction of one column array
(part_000 lines 230–239): kept entries are written consecutively from
position 0 in order and the count truncated to their number, so the
result is the kept entries in their original order. -/
def compactColumnsArray (l : List FmpColumn) : List FmpColumn :=
  l.foldl (fun acc c => if c.index ≠ 0 then acc ++ [c] else acc) []

/-- The column-array compaction loop over map keys
(`for (size_t t = 1; t <= count && t < capacity; t++)`, part_000 lines
227–241), with fuel equal to the number of remaining iterations. -/
def compactColumnsMapsAux (cap count : Nat) :
    Nat → Nat → (Nat → Option (List FmpColumn)) → (Nat → Option (List FmpColumn))
  | _, 0, cols => cols
  | t, fuel + 1, cols =>
    if t ≤ count ∧ t < cap then
      compactColumnsMapsAux cap count (t + 1) fuel
        (match cols t with
         | some arr => fun j => if j = t then some (compactColumnsArray arr) else cols j
         | none => cols)
    else cols

/-- The full compaction tail of `fmp_discover_all_metadata`
(part_000 lines 202–241): compact the table array (re-keying the columns
map), then compact each kept table's column array. -/
def fmpCompactMetadata (m : FmpMetadata) : FmpMetadata :=
  let m1 := compactTables m
  { m1 with columns := (compactColumnsMapsAux m1.columnsCapacity m1.tables.length
                        1 m1.tables.length m1.columns) }

/-- The original array slots (from slot `n` on) of the tables that
survive compaction. -/
def keptSlotsFrom (n : Nat) (l : List FmpTable) : List Nat :=
  ((l.enumFrom n).filter (fun p => p.2.index ≠ 0)).map (fun p => p.1)

/-- The original array slots of the tables that survive compaction. -/
def keptSlots (l : List FmpTable) : List Nat := keptSlotsFrom 0 l

/-- A 128-slot column array with nonzero entries (indices 1, 2, 5, 128)
at positions 0, 1, 4 and 127, all other slots zero-filled holes. -/
def demoColumns128 : List FmpColumn :=
  [⟨1, [65], 0, 0⟩, ⟨2, [66], 0, 0⟩] ++ List.replicate 2 ⟨0, [], 0, 0⟩ ++
    [⟨5, [67], 0, 0⟩] ++ List.replicate 122 ⟨0, [], 0, 0⟩ ++ [⟨128, [68], 0, 0⟩]

/-- A metadata value as discovery builds it: a hole at slot 0, a table
of index 2 at slot 1, and the columns map keyed by table index. -/
def demoMeta : FmpMetadata :=
  ⟨[⟨0, [], false⟩, ⟨2, [65], false⟩],
   fun i => if i = 2 then some demoColumns128 else none,
   130⟩

/-- A stateless consumer that answers `CHUNK_DONE` to every chunk. -/
def alwaysDone : Unit → AnnChunk → Unit × ChunkStatus :=
  fun _ _ => ((), .done)

/-- A stateless consumer that answers `CHUNK_NEXT` to every chunk. -/
def alwaysNext : Unit → AnnChunk → Unit × ChunkStatus :=
  fun _ _ => ((), .next)

/-- A three-block file image: block ordinal 2 (array slot 1) carries one
`FIELD_REF_SIMPLE` chunk with `ref_simple = 1` and links to block ordinal
3, which carries one `FIELD_REF_SIMPLE` chunk with `ref_simple = 2` and
terminates the chain. -/
def demoBlocks : List FmpBlock :=
  [⟨0, []⟩,
   ⟨3, [⟨.fieldRefSimple, [], 1, 0⟩]⟩,
   ⟨0, [⟨.fieldRefSimple, [], 2, 0⟩]⟩]

/-- A one-table metadata value: table index 2, one column of index 1. -/
def demoMd : FmpMetadata :=
  ⟨[⟨2, [65], false⟩],
   fun i => if i = 2 then some [⟨1, [65], 0, 0⟩] else none,
   130⟩

/-- A two-block file image whose second block (the first one traversed)
pushes the path `[130, 5, 9]` and then carries one `FIELD_REF_SIMPLE`
value chunk with `ref_simple = 1` and data `[66]` for table index 2. -/
def demoValueBlocks : List FmpBlock :=
  [⟨0, []⟩,
   ⟨0, [⟨.pathPush, [130], 0, 0⟩,
        ⟨.pathPush, [5], 0, 0⟩,
        ⟨.pathPush, [9], 0, 0⟩,
        ⟨.fieldRefSimple, [66], 1, 0⟩]⟩]

end Fmp

namespace Fmp

/-- **C2.**  The claim states that a header reading `HBAM5` yields
`sector_size = 1024` together with a WINDOWS-1252 converter for every
value conversion.  The mapped open path behaves that way, but the stream
open path (`read_header`, used for all files at or below the 100 MiB
threshold) configures a MACINTOSH converter for every pre-v7 file
(and leaves `version_num = 0`): evaluating both embedded parsers on a
concrete `HBAM5` header exhibits the divergence. -/
theorem c2_hbam5_stream_charset_bug :
    readHeader hbam5Header =
      .ok { sectorSize := 1024, prevSectorOffset := 2, nextSectorOffset := 6,
            payloadLenOffset := 12, sectorHeadLen := 14, sectorIndexShift := 1,
            versionNum := 0, converter := .macintosh }
    ∧ mmapReadHeader hbam5Header =
      .ok { sectorSize := 1024, xorMask := 0, sectorIndexShift := 9,
            prevSectorOffset := 4, nextSectorOffset := 8,
            payloadLenOffset := 12, sectorHeadLen := 14,
            versionNum := 5, converter := .windows1252 } := by
  set_option maxRecDepth 20000 in constructor <;> rfl

/-- **C1.**  The claim asserts that the stream backend and the mapped
backend yield identical metadata and value sequences for every file
content.  Both downstream pipelines are deterministic functions of the
configured file context and the file bytes, but on the same `HBAM5` file
content the two open paths configure contexts that disagree in the
charset converter (MACINTOSH vs WINDOWS-1252), the sector-header offsets
(`prev/next` = 2/6 vs 4/8), the sector-index shift (1 vs 9) and the
stored version number (0 vs 5) — so the decoded block chains and the
emitted strings differ.  On `HBAM7` content the two configurations agree,
as the second conjunct records. -/
theorem c1_stream_mmap_configs_diverge :
    (readHeader hbam5Header ≠ mmapReadHeader hbam5Header
      ∧ (readHeader hbam5Header).map FileConfig.converter = .ok .macintosh
      ∧ (mmapReadHeader hbam5Header).map FileConfig.converter = .ok .windows1252
      ∧ (readHeader hbam5Header).map FileConfig.nextSectorOffset = .ok 6
      ∧ (mmapReadHeader hbam5Header).map FileConfig.nextSectorOffset = .ok 8)
    ∧ readHeader hbam7Header = mmapReadHeader hbam7Header := by
  set_option maxRecDepth 20000 in
  refine ⟨⟨?_, rfl, rfl, rfl, rfl⟩, rfl⟩
  intro h
  have h2 : (readHeader hbam5Header).map FileConfig.converter =
      (mmapReadHeader hbam5Header).map FileConfig.converter := by rw [h]
  rw [show (readHeader hbam5Header).map FileConfig.converter =
        Except.ok Converter.macintosh from rfl] at h2
  rw [show (mmapReadHeader hbam5Header).map FileConfig.converter =
        Except.ok Converter.windows1252 from rfl] at h2
  injection h2 with h3
  exact Converter.noConfusion h3

/-- **C3.**  `path_value` decodes a 1-byte segment to `b[0]`, a 2-byte
segment to `0x80 + ((b[0] & 0x7F) << 8) + b[1]`, a 3-byte segment to
`0x80 + (b[1] << 8) + b[2]` for `version_num ≥ 7` and to
`0xC000 + ((b[0] & 0x3F) << 16) + (b[1] << 8) + b[2]` for
`version_num < 7`, and any other length to 0; being a Lean function of
`(version_num, segment bytes)`, it is pure: the same inputs always
produce the same integer. -/
theorem c3_path_value_decoding (versionNum : Nat) (seg : List Nat) :
    pathValue versionNum seg = pathValueSpec versionNum seg := by
  match seg with
  | [] => rfl
  | [b0] => rfl
  | [b0, b1] => rfl
  | [b0, b1, b2] =>
      simp only [pathValue, pathValueSpec]
      norm_num
      rcases Nat.lt_or_ge versionNum 7 with h | h
      · simp [h, Nat.not_le.mpr h]
      · simp [h, Nat.not_lt.mpr h]
  | b0 :: b1 :: b2 :: b3 :: rest =>
      simp [pathValue, pathValueSpec, List.length_cons]

/-- `process_chunk` records `path_level` before applying the chunk's
push or pop. -/
theorem processChunk_records_level (v : Nat) (ps : PathState) (c : FmpChunk) :
    (processChunk v ps c).1.pathLevel = ps.pathLevel := rfl

/-- The path depth stays nonnegative across one `process_chunk`. -/
theorem processChunk_level_nonneg (v : Nat) (ps : PathState) (c : FmpChunk)
    (h : 0 ≤ ps.pathLevel) : 0 ≤ (processChunk v ps c).2.pathLevel := by
  rcases c with ⟨ct, d, r, g⟩
  cases ct <;> simp [processChunk] <;>
    first
      | omega
      | (split <;> simp_all <;> omega)

/-- Every chunk delivered by a chain whose starting depth is nonnegative
carries a nonnegative recorded `path_level`, and the final depth is
nonnegative as well. -/
theorem chainAux_levels_nonneg {σ : Type} (handler : σ → AnnChunk → σ × ChunkStatus)
    (v : Nat) (chunks : List FmpChunk) :
    ∀ (ps : PathState) (s : σ), 0 ≤ ps.pathLevel →
      ∀ p ∈ (processChunkChainAux handler v ps s chunks).1, 0 ≤ p.1.pathLevel := by
  induction chunks with
  | nil => intro ps s h p hp; simp [processChunkChainAux] at hp
  | cons c rest ih =>
    intro ps s h p hp
    rw [processChunkChainAux] at hp
    rcases hst : (handler s (processChunk v ps c).1).2 with _ | _ | _ <;>
      simp only [hst, List.mem_cons, List.mem_singleton] at hp
    case next =>
      rcases hp with rfl | hp
      · simpa [processChunk_records_level] using h
      · exact ih _ _ (processChunk_level_nonneg v ps c h) p hp
    all_goals
      rcases hp with rfl | hp
      · simpa [processChunk_records_level] using h
      · simp at hp

/-- Every chunk delivered by the block traversal carries a nonnegative
recorded `path_level` (each block's chain starts at depth 0). -/
theorem blocksAux_levels_nonneg {σ : Type} (handler : σ → AnnChunk → σ × ChunkStatus)
    (v : Nat) (blocks : List FmpBlock) (numBlocks : Nat) :
    ∀ (iterLeft nextBlock : Nat) (visited : List Nat) (ps : PathState) (s : σ),
      ∀ p ∈ (processBlocksAux handler v blocks numBlocks iterLeft nextBlock visited ps s).1,
        0 ≤ p.1.pathLevel := by
  intro iterLeft
  induction iterLeft with
  | zero =>
    intro nextBlock visited ps s p hp
    rw [processBlocksAux] at hp
    rcases hb : blocks.get? (nextBlock - 1) with _ | b <;> simp only [hb] at hp
    · simp at hp
    · by_cases hv : numBlocks < 100000 ∧ nextBlock - 1 < numBlocks ∧ (nextBlock - 1) ∈ visited
      · simp [hv] at hp
      · simp only [if_neg hv] at hp
        exact chainAux_levels_nonneg handler v b.chunks _ s (by simp) p hp
  | succ k ih =>
    intro nextBlock visited ps s p hp
    rw [processBlocksAux] at hp
    rcases hb : blocks.get? (nextBlock - 1) with _ | b <;> simp only [hb] at hp
    · simp at hp
    · by_cases hv : numBlocks < 100000 ∧ nextBlock - 1 < numBlocks ∧ (nextBlock - 1) ∈ visited
      · simp [hv] at hp
      · simp only [if_neg hv] at hp
        by_cases hc : b.nextId ≠ 0 ∧ b.nextId - 1 < numBlocks ∧
            (processChunkChain handler v ps s b.chunks).2.2.2 = FmpRes.ok
        · simp only [if_pos hc, List.mem_append] at hp
          rcases hp with hp | hp
          · exact chainAux_levels_nonneg handler v b.chunks _ s (by simp) p hp
          · exact ih _ _ _ _ p hp
        · simp only [if_neg hc] at hp
          exact chainAux_levels_nonneg handler v b.chunks _ s (by simp) p hp

/-- **C6.**  Every chunk delivered to a consumer carries a nonnegative
recorded `path_level`: `process_chunk_chain` resets the depth to 0 at
the start of each block's chain, `process_chunk` records the depth
before applying the chunk's push or pop, and a `PATH_POP` at depth 0
leaves the depth at 0. -/
theorem c6_path_level_nonneg {σ : Type} (handler : σ → AnnChunk → σ × ChunkStatus)
    (versionNum : Nat) (blocks : List FmpBlock) (numBlocks : Nat) (s : σ) :
    ∀ p ∈ (processBlocks handler versionNum blocks numBlocks s).1, 0 ≤ p.1.pathLevel :=
  blocksAux_levels_nonneg handler versionNum blocks numBlocks (2 * numBlocks) 2 [] ⟨[], 0⟩ s

/-- Witness for C6: a concrete traversal delivering a chunk, whose
recorded `path_level` the theorem shows nonnegative. -/
theorem c6_path_level_nonneg_witness :
    0 ≤ ((⟨⟨.fieldRefSimple, [], 1, 0⟩, [], 0, 7⟩ : AnnChunk), ChunkStatus.next).1.pathLevel :=
  c6_path_level_nonneg alwaysNext 7 demoBlocks 3 ()
    (⟨⟨.fieldRefSimple, [], 1, 0⟩, [], 0, 7⟩, ChunkStatus.next) (by decide)

/-- A chunk matching `table_path_match_start1` at some depth has exactly
that table-path depth. -/
theorem tablePathMatchStart1_depth (ann : AnnChunk) (d : Int) (v : Nat)
    (h : tablePathMatchStart1 ann d v = true) : tablePathDepth ann = d := by
  unfold tablePathMatchStart1 at h
  by_cases hd : tablePathDepth ann ≠ d
  · simp [hd] at h
  · omega

/-- A table-data chunk (depth-2 path) is never a long-string chunk
(depth-3 path). -/
theorem pathIsLongString_false_of_tableData (ann : AnnChunk) (st : TableReadState)
    (h : pathIsTableData ann = true) : pathIsLongString ann st = false := by
  have hd : tablePathDepth ann = 2 := tablePathMatchStart1_depth ann 2 5 h
  have h35 : tablePathMatchStart1 ann 3 5 = false := by
    unfold tablePathMatchStart1
    rw [hd]
    simp
  unfold pathIsLongString
  rw [h35]
  simp

/-- With an empty long-string buffer the flush boundary does nothing. -/
theorem pvtFlush_of_empty {κ : Type} (cb : κ → Emission → κ × HandlerStatus)
    (xorMask tableIndex : Nat) (cols : List FmpColumn) (st : TableReadState)
    (k : κ) (column : FmpColumn) (hbuf : st.longStringBuf = []) :
    pvtFlush cb xorMask tableIndex cols st k column = (st, k, [], false) := by
  unfold pvtFlush
  simp [hbuf]

/-- The flush boundary never changes `current_row`, `last_row` or
`last_column` (it only emits and clears the buffer). -/
theorem pvtFlush_frame {κ : Type} (cb : κ → Emission → κ × HandlerStatus)
    (xorMask tableIndex : Nat) (cols : List FmpColumn) (st : TableReadState)
    (k : κ) (column : FmpColumn) :
    (pvtFlush cb xorMask tableIndex cols st k column).1.currentRow = st.currentRow ∧
    (pvtFlush cb xorMask tableIndex cols st k column).1.lastRow = st.lastRow ∧
    (pvtFlush cb xorMask tableIndex cols st k column).1.lastColumn = st.lastColumn := by
  by_cases h1 : column.index ≠ st.lastColumn ∧ st.longStringBuf ≠ []
  · rw [pvtFlush, if_pos h1]
    by_cases h2 : 0 < st.lastColumn
    · rw [if_pos h2]
      rcases hf : cols.find? (fun c => c.index = st.lastColumn) with _ | lastCol
      · simp [hf]
      · simp only [hf]
        rcases hcb : (cb k ⟨tableIndex, st.currentRow, lastCol,
            convertBytes xorMask st.longStringBuf⟩).2 with _ | _ <;> simp [hcb]
    · rw [if_neg h2]
      simp
  · rw [pvtFlush, if_neg h1]
    simp

/-- A chunk that resolves to no usable column is a no-op for
`process_value_for_table`. -/
theorem pvt_skip_unresolved {κ : Type}
    (cb : κ → Emission → κ × HandlerStatus) (xorMask tableIndex : Nat)
    (st : TableReadState) (k : κ) (ann : AnnChunk) (cols : List FmpColumn)
    (hcols : st.columns = some cols)
    (hskip : resolvedColumnIndex ann st cols.length = 0 ∨
      cols.length < resolvedColumnIndex ann st cols.length ∨
      cols.find? (fun c => c.index = resolvedColumnIndex ann st cols.length) = none) :
    processValueForTable cb xorMask tableIndex st k ann = (st, k, [], .next) := by
  unfold processValueForTable
  simp only [hcols]
  by_cases hrich : pathIsLongString ann st = true ∧ ann.chunk.ctype = .fieldRefSimple ∧
      ann.chunk.refSimple = 0
  · rw [if_pos hrich]
  · rw [if_neg hrich]
    by_cases hc : resolvedColumnIndex ann st cols.length = 0 ∨
        cols.length < resolvedColumnIndex ann st cols.length
    · simp [hc]
    · simp only [if_neg hc]
      rcases hskip with h | h | h
      · exact absurd (Or.inl h) hc
      · exact absurd (Or.inr h) hc
      · simp [h]

/-- **C9.**  A value chunk whose resolved column index is 0, exceeds the
table's column count, or matches no stored column index is skipped
atomically: the callback is not invoked, the chunk status is `NEXT`, and
the table's read state (including `current_row`, `last_row`,
`last_column` and the long-string buffer) is returned unchanged. -/
theorem c9_unresolved_chunk_skipped_atomically {κ : Type}
    (cb : κ → Emission → κ × HandlerStatus) (xorMask tableIndex : Nat)
    (st : TableReadState) (k : κ) (ann : AnnChunk) (cols : List FmpColumn)
    (hcols : st.columns = some cols)
    (hskip : resolvedColumnIndex ann st cols.length = 0 ∨
      cols.length < resolvedColumnIndex ann st cols.length ∨
      cols.find? (fun c => c.index = resolvedColumnIndex ann st cols.length) = none) :
    processValueForTable cb xorMask tableIndex st k ann = (st, k, [], .next) :=
  pvt_skip_unresolved cb xorMask tableIndex st k ann cols hcols hskip

/-- Witness for C9: a concrete `FIELD_REF_SIMPLE` chunk with
`ref_simple = 252` (the reserved sentinel, which resolves to 0) leaves a
concrete table state untouched. -/
theorem c9_unresolved_chunk_skipped_atomically_witness :
    processValueForTable (fun (_ : Unit) _ => ((), HandlerStatus.ok)) 0 1
      { currentRow := 4, lastRow := 9, lastColumn := 1, longStringBuf := [],
        columns := some [⟨1, [65], 0, 0⟩] } ()
      ⟨⟨.fieldRefSimple, [66], 252, 0⟩, [[200], [5], [9]], 3, 7⟩ =
      ({ currentRow := 4, lastRow := 9, lastColumn := 1, longStringBuf := [],
         columns := some [⟨1, [65], 0, 0⟩] }, (), [], .next) :=
  c9_unresolved_chunk_skipped_atomically (fun (_ : Unit) _ => ((), HandlerStatus.ok)) 0 1
    { currentRow := 4, lastRow := 9, lastColumn := 1, longStringBuf := [],
      columns := some [⟨1, [65], 0, 0⟩] } ()
    ⟨⟨.fieldRefSimple, [66], 252, 0⟩, [[200], [5], [9]], 3, 7⟩ [⟨1, [65], 0, 0⟩]
    rfl (by decide)

/-- **C10.**  The reserved-sentinel exclusion of 252 applies only to
`FIELD_REF_SIMPLE` chunks: a `DATA_SEGMENT` chunk with
`segment_index = 252` on a table-data path, with 252 within the column
count and a stored column of index 252, resolves to that column and is
emitted as a regular value (exactly one callback invocation, carrying
that column and the chunk's converted data) rather than being skipped. -/
theorem c10_data_segment_252_not_excluded {κ : Type}
    (cb : κ → Emission → κ × HandlerStatus) (xorMask tableIndex : Nat)
    (st : TableReadState) (k : κ) (ann : AnnChunk) (cols : List FmpColumn)
    (column : FmpColumn)
    (hcols : st.columns = some cols)
    (hty : ann.chunk.ctype = .dataSegment)
    (hseg : ann.chunk.segmentIndex = 252)
    (htd : pathIsTableData ann = true)
    (hcount : 252 ≤ cols.length)
    (hfind : cols.find? (fun c => c.index = 252) = some column)
    (hbuf : st.longStringBuf = []) :
    (processValueForTable cb xorMask tableIndex st k ann).2.2.1.map
        (fun p => (p.1.column, p.1.value)) =
      [(column, convertBytes xorMask ann.chunk.data)] := by
  have hls : pathIsLongString ann st = false :=
    pathIsLongString_false_of_tableData ann st htd
  have hres : resolvedColumnIndex ann st cols.length = 252 := by
    have hA : ¬(ann.chunk.ctype = ChunkType.fieldRefSimple ∧
        ann.chunk.refSimple ≤ cols.length ∧ ann.chunk.refSimple ≠ 252) := by
      simp [hty]
    have hB2 : ann.chunk.segmentIndex ≤ cols.length := by
      rw [hseg]
      exact hcount
    have hB : ann.chunk.ctype = ChunkType.dataSegment ∧
        ann.chunk.segmentIndex ≤ cols.length := ⟨hty, hB2⟩
    unfold resolvedColumnIndex
    rw [hls, htd]
    simp [hA, hB, hseg, hcount]
  have hrich : ¬(pathIsLongString ann st = true ∧ ann.chunk.ctype = .fieldRefSimple ∧
      ann.chunk.refSimple = 0) := by simp [hls]
  unfold processValueForTable
  simp only [hcols]
  rw [if_neg hrich]
  simp only [hres]
  rw [if_neg (show ¬((252 : Nat) = 0 ∨ cols.length < 252) by omega)]
  simp only [hfind]
  rw [pvtFlush_of_empty cb xorMask tableIndex cols st k column hbuf]
  simp only [hls, Bool.false_eq_true, if_false]
  rcases hcb : (cb k ⟨tableIndex,
      (if pathRow ann ≠ st.lastRow ∨ column.index < st.lastColumn then
        { st with currentRow := st.currentRow + 1 }
      else st).currentRow, column, convertBytes xorMask ann.chunk.data⟩).2 with _ | _ <;>
    simp [hcb]

set_option maxRecDepth 40000 in
/-- Witness for C10: a concrete v7 `DATA_SEGMENT` chunk with
`segment_index = 252` on a depth-2 table path, against a table whose
column list has 252 entries and stores index 252 in the last one, is
emitted with that column. -/
theorem c10_data_segment_252_not_excluded_witness :
    (processValueForTable (fun (_ : Unit) _ => ((), HandlerStatus.ok)) 0 1
      { currentRow := 0, lastRow := 0, lastColumn := 0, longStringBuf := [],
        columns := some (List.replicate 251 (⟨0, [], 0, 0⟩ : FmpColumn) ++
          [⟨252, [67], 0, 0⟩]) } ()
      ⟨⟨.dataSegment, [66], 0, 252⟩, [[200], [5], [9]], 3, 7⟩).2.2.1.map
        (fun p => (p.1.column, p.1.value)) =
      [(⟨252, [67], 0, 0⟩, convertBytes 0 [66])] :=
  c10_data_segment_252_not_excluded (fun (_ : Unit) _ => ((), HandlerStatus.ok)) 0 1
    { currentRow := 0, lastRow := 0, lastColumn := 0, longStringBuf := [],
      columns := some (List.replicate 251 (⟨0, [], 0, 0⟩ : FmpColumn) ++
        [⟨252, [67], 0, 0⟩]) } ()
    ⟨⟨.dataSegment, [66], 0, 252⟩, [[200], [5], [9]], 3, 7⟩
    (List.replicate 251 (⟨0, [], 0, 0⟩ : FmpColumn) ++ [⟨252, [67], 0, 0⟩])
    ⟨252, [67], 0, 0⟩ rfl rfl rfl (by decide) (by decide) (by decide) rfl

/-- A list with at most one element is trivially a chain. -/
theorem chain'_of_length_le_one {α : Type} (R : α → α → Prop) (l : List α)
    (h : l.length ≤ 1) : List.Chain' R l := by
  match l with
  | [] => exact List.chain'_nil
  | [a] => exact List.chain'_singleton a
  | a :: b :: t => simp at h

/-- Every flush-boundary emission carries the table state's
`current_row`, and there is at most one of them. -/
theorem pvtFlush_rows {κ : Type} (cb : κ → Emission → κ × HandlerStatus)
    (xorMask tableIndex : Nat) (cols : List FmpColumn) (st : TableReadState)
    (k : κ) (column : FmpColumn) :
    (∀ p ∈ (pvtFlush cb xorMask tableIndex cols st k column).2.2.1,
      p.1.row = st.currentRow) ∧
    (pvtFlush cb xorMask tableIndex cols st k column).2.2.1.length ≤ 1 := by
  by_cases h1 : column.index ≠ st.lastColumn ∧ st.longStringBuf ≠ []
  · rw [pvtFlush, if_pos h1]
    by_cases h2 : 0 < st.lastColumn
    · rw [if_pos h2]
      rcases hf : cols.find? (fun c => c.index = st.lastColumn) with _ | lastCol
      · simp [hf]
      · simp only [hf]
        rcases hcb : (cb k ⟨tableIndex, st.currentRow, lastCol,
            convertBytes xorMask st.longStringBuf⟩).2 with _ | _ <;> simp [hcb]
    · rw [if_neg h2]
      simp
  · rw [pvtFlush, if_neg h1]
    simp

/-- One `process_value_for_table` step only moves `current_row` forward,
and every emission it makes carries a row between the entry and exit
values of `current_row`, in nondecreasing order. -/
theorem pvt_step_rows {κ : Type} (cb : κ → Emission → κ × HandlerStatus)
    (xorMask tableIndex : Nat) (st : TableReadState) (k : κ) (ann : AnnChunk) :
    st.currentRow ≤ (processValueForTable cb xorMask tableIndex st k ann).1.currentRow ∧
    (∀ p ∈ (processValueForTable cb xorMask tableIndex st k ann).2.2.1,
      st.currentRow ≤ p.1.row ∧
        p.1.row ≤ (processValueForTable cb xorMask tableIndex st k ann).1.currentRow) ∧
    List.Chain' (· ≤ ·)
      ((processValueForTable cb xorMask tableIndex st k ann).2.2.1.map
        (fun p => p.1.row)) := by
  rcases hcols : st.columns with _ | cols
  · simp [processValueForTable, hcols]
  by_cases hrich : pathIsLongString ann st = true ∧ ann.chunk.ctype = .fieldRefSimple ∧
      ann.chunk.refSimple = 0
  · simp [processValueForTable, hcols, if_pos hrich]
  by_cases hc : resolvedColumnIndex ann st cols.length = 0 ∨
      cols.length < resolvedColumnIndex ann st cols.length
  · simp [processValueForTable, hcols, if_neg hrich, if_pos hc]
  rcases hfind : cols.find? (fun c => c.index = resolvedColumnIndex ann st cols.length)
    with _ | column
  · simp [processValueForTable, hcols, if_neg hrich, if_neg hc, hfind]
  have hframe := pvtFlush_frame cb xorMask tableIndex cols st k column
  have hrows := pvtFlush_rows cb xorMask tableIndex cols st k column
  by_cases hfa : (pvtFlush cb xorMask tableIndex cols st k column).2.2.2 = true
  · simp only [processValueForTable, hcols, if_neg hrich, if_neg hc, hfind, hfa,
      eq_self_iff_true, if_true]
    refine ⟨le_of_eq hframe.1.symm, fun p hp => ?_, ?_⟩
    · have := hrows.1 p hp
      constructor <;> omega
    · exact chain'_of_length_le_one _ _ (by simpa using hrows.2)
  · rw [Bool.not_eq_true] at hfa
    simp only [processValueForTable, hcols, if_neg hrich, if_neg hc, hfind, hfa,
      Bool.false_eq_true, if_false]
    set fl := pvtFlush cb xorMask tableIndex cols st k column with hfl
    set st2 := if pathRow ann ≠ fl.1.lastRow ∨ column.index < fl.1.lastColumn then
        { fl.1 with currentRow := fl.1.currentRow + 1 } else fl.1 with hst2
    have hcr : fl.1.currentRow ≤ st2.currentRow ∧
        st2.currentRow ≤ fl.1.currentRow + 1 := by
      rw [hst2]
      split <;> constructor <;> simp
    by_cases hlsb : pathIsLongString ann st = true
    · simp only [hlsb, eq_self_iff_true, if_true]
      refine ⟨?_, fun p hp => ?_, ?_⟩
      · show st.currentRow ≤ st2.currentRow
        omega
      · have := hrows.1 p hp
        refine ⟨by omega, ?_⟩
        show p.1.row ≤ st2.currentRow
        omega
      · exact chain'_of_length_le_one _ _ (by simpa using hrows.2)
    · rw [Bool.not_eq_true] at hlsb
      simp only [hlsb, Bool.false_eq_true, if_false]
      rcases hcb : (cb fl.2.1 ⟨tableIndex, st2.currentRow, column,
          convertBytes xorMask ann.chunk.data⟩).2 with _ | _ <;>
      · simp only [hcb]
        refine ⟨?_, fun p hp => ?_, ?_⟩
        · show st.currentRow ≤ st2.currentRow
          omega
        · rcases List.mem_append.mp hp with hp2 | hp2
          · have := hrows.1 p hp2
            refine ⟨by omega, ?_⟩
            show p.1.row ≤ st2.currentRow
            omega
          · have hp3 := List.mem_singleton.mp hp2
            subst hp3
            refine ⟨?_, ?_⟩
            · show st.currentRow ≤ st2.currentRow
              omega
            · show st2.currentRow ≤ st2.currentRow
              exact le_rfl
        · rcases hlist : fl.2.2.1 with _ | ⟨e, tl⟩
          · simp only [hlist, List.nil_append, List.map_cons, List.map_nil]
            exact List.chain'_singleton _
          · rcases tl with _ | ⟨e2, tl2⟩
            · have he : e ∈ fl.2.2.1 := by
                rw [hlist]
                exact List.mem_cons_self e []
              have hre := hrows.1 e he
              simp only [hlist, List.cons_append, List.nil_append, List.map_cons,
                List.map_nil]
              refine List.chain'_cons.mpr ⟨?_, List.chain'_singleton _⟩
              show e.1.row ≤ st2.currentRow
              omega
            · rw [hlist] at hrows
              simp at hrows

/-- Feeding a chunk list through the row assembler only moves
`current_row` forward; all emissions carry rows between the entry and
exit `current_row`, in nondecreasing order. -/
theorem run_rows {κ : Type} (cb : κ → Emission → κ × HandlerStatus)
    (xorMask tableIndex : Nat) (anns : List AnnChunk) :
    ∀ (st : TableReadState) (k : κ),
      st.currentRow ≤ (processValueRun cb xorMask tableIndex st k anns).1.currentRow ∧
      (∀ p ∈ (processValueRun cb xorMask tableIndex st k anns).2.2.1,
        st.currentRow ≤ p.1.row ∧
          p.1.row ≤ (processValueRun cb xorMask tableIndex st k anns).1.currentRow) ∧
      List.Chain' (· ≤ ·)
        ((processValueRun cb xorMask tableIndex st k anns).2.2.1.map
          (fun p => p.1.row)) := by
  induction anns with
  | nil => intro st k; simp [processValueRun]
  | cons a rest ih =>
    intro st k
    have hstep := pvt_step_rows cb xorMask tableIndex st k a
    rw [processValueRun]
    rcases hst : (processValueForTable cb xorMask tableIndex st k a).2.2.2
      with _ | _ | _ <;> simp only [hst]
    case abort => exact hstep
    all_goals
      have hih := ih (processValueForTable cb xorMask tableIndex st k a).1
        (processValueForTable cb xorMask tableIndex st k a).2.1
      refine ⟨le_trans hstep.1 hih.1, fun p hp => ?_, ?_⟩
      · rcases List.mem_append.mp hp with hp2 | hp2
        · have h1 := hstep.2.1 p hp2
          exact ⟨h1.1, le_trans h1.2 hih.1⟩
        · have h1 := hih.2.1 p hp2
          exact ⟨le_trans hstep.1 h1.1, h1.2⟩
      · rw [List.map_append]
        refine List.Chain'.append hstep.2.2 hih.2.2 ?_
        intro x hx y hy
        have hx2 : x ∈ (processValueForTable cb xorMask tableIndex st k a).2.2.1.map
            (fun p => p.1.row) := List.mem_of_getLast?_eq_some (Option.mem_def.mp hx)
        have hy2 : y ∈ (processValueRun cb xorMask tableIndex
            (processValueForTable cb xorMask tableIndex st k a).1
            (processValueForTable cb xorMask tableIndex st k a).2.1 rest).2.2.1.map
            (fun p => p.1.row) := by
          rcases List.head?_eq_some_iff.mp (Option.mem_def.mp hy) with ⟨ys, hys⟩
          rw [hys]
          exact List.mem_cons_self y ys
        rcases List.mem_map.mp hx2 with ⟨p, hpmem, rfl⟩
        rcases List.mem_map.mp hy2 with ⟨q, hqmem, rfl⟩
        exact le_trans (hstep.2.1 p hpmem).2 (hih.2.1 q hqmem).1

/-- The end-of-traversal flush emits (at most once) the table's final
`current_row`. -/
theorem finalFlush_rows {κ : Type} (cb : κ → Emission → κ × HandlerStatus)
    (xorMask tableIndex : Nat) (st : TableReadState) (k : κ) :
    (∀ p ∈ (finalFlush cb xorMask tableIndex st k).2, p.1.row = st.currentRow) ∧
    (finalFlush cb xorMask tableIndex st k).2.length ≤ 1 := by
  by_cases h1 : st.longStringBuf ≠ []
  · rw [finalFlush, if_pos h1]
    rcases hc : st.columns with _ | cols <;> simp only [hc]
    · simp
    · rcases hf : cols.find? (fun c => c.index = st.lastColumn) with _ | lastCol <;>
        simp only [hf]
      · simp
      · simp
  · rw [finalFlush, if_neg h1]
    simp

/-- The row-advance rule of `process_value_for_table`: when a column is
resolved and the flush boundary does not abort, `current_row` is
incremented exactly when the chunk's row path differs from `last_row` or
the resolved column's index is below `last_column`. -/
theorem pvt_row_advance {κ : Type} (cb : κ → Emission → κ × HandlerStatus)
    (xorMask tableIndex : Nat) (st : TableReadState) (k : κ) (ann : AnnChunk)
    (cols : List FmpColumn) (column : FmpColumn)
    (hcols : st.columns = some cols)
    (hrich : ¬(pathIsLongString ann st = true ∧ ann.chunk.ctype = .fieldRefSimple ∧
      ann.chunk.refSimple = 0))
    (hc : ¬(resolvedColumnIndex ann st cols.length = 0 ∨
      cols.length < resolvedColumnIndex ann st cols.length))
    (hfind : cols.find? (fun c => c.index = resolvedColumnIndex ann st cols.length) =
      some column)
    (hfa : (pvtFlush cb xorMask tableIndex cols st k column).2.2.2 = false) :
    (processValueForTable cb xorMask tableIndex st k ann).1.currentRow =
      st.currentRow +
        (if pathRow ann ≠ st.lastRow ∨ column.index < st.lastColumn then 1 else 0) := by
  have hframe := pvtFlush_frame cb xorMask tableIndex cols st k column
  simp only [processValueForTable, hcols, if_neg hrich, if_neg hc, hfind, hfa,
    Bool.false_eq_true, if_false]
  set fl := pvtFlush cb xorMask tableIndex cols st k column with hfl
  have hcond : (pathRow ann ≠ fl.1.lastRow ∨ column.index < fl.1.lastColumn) ↔
      (pathRow ann ≠ st.lastRow ∨ column.index < st.lastColumn) := by
    rw [hframe.2.1, hframe.2.2]
  by_cases hadv : pathRow ann ≠ st.lastRow ∨ column.index < st.lastColumn
  · rw [if_pos (hcond.mpr hadv), if_pos hadv]
    by_cases hlsb : pathIsLongString ann st = true
    · simp only [hlsb, eq_self_iff_true, if_true]
      show fl.1.currentRow + 1 = st.currentRow + 1
      omega
    · rw [Bool.not_eq_true] at hlsb
      simp only [hlsb, Bool.false_eq_true, if_false]
      split <;>
      · show fl.1.currentRow + 1 = st.currentRow + 1
        omega
  · rw [if_neg (fun hh => hadv (hcond.mp hh)), if_neg hadv]
    by_cases hlsb : pathIsLongString ann st = true
    · simp only [hlsb, eq_self_iff_true, if_true]
      show fl.1.currentRow = st.currentRow + 0
      omega
    · rw [Bool.not_eq_true] at hlsb
      simp only [hlsb, Bool.false_eq_true, if_false]
      split <;>
      · show fl.1.currentRow = st.currentRow + 0
        omega

/-- Emission rows stay nondecreasing when the end-of-traversal flush is
appended to a run's emissions. -/
theorem run_rows_with_final_flush {κ : Type} (cb : κ → Emission → κ × HandlerStatus)
    (xorMask tableIndex : Nat) (st : TableReadState) (k : κ) (anns : List AnnChunk) :
    List.Chain' (· ≤ ·)
      (((processValueRun cb xorMask tableIndex st k anns).2.2.1 ++
        (finalFlush cb xorMask tableIndex
          (processValueRun cb xorMask tableIndex st k anns).1
          (processValueRun cb xorMask tableIndex st k anns).2.1).2).map
        (fun p => p.1.row)) := by
  have hrun := run_rows cb xorMask tableIndex anns st k
  have hff := finalFlush_rows cb xorMask tableIndex
    (processValueRun cb xorMask tableIndex st k anns).1
    (processValueRun cb xorMask tableIndex st k anns).2.1
  rw [List.map_append]
  refine List.Chain'.append hrun.2.2
    (chain'_of_length_le_one _ _ (by simpa using hff.2)) ?_
  intro x hx y hy
  have hx2 : x ∈ (processValueRun cb xorMask tableIndex st k anns).2.2.1.map
      (fun p => p.1.row) := List.mem_of_getLast?_eq_some (Option.mem_def.mp hx)
  have hy2 : y ∈ (finalFlush cb xorMask tableIndex
      (processValueRun cb xorMask tableIndex st k anns).1
      (processValueRun cb xorMask tableIndex st k anns).2.1).2.map
      (fun p => p.1.row) := by
    rcases List.head?_eq_some_iff.mp (Option.mem_def.mp hy) with ⟨ys, hys⟩
    rw [hys]
    exact List.mem_cons_self y ys
  rcases List.mem_map.mp hx2 with ⟨p, hpmem, rfl⟩
  rcases List.mem_map.mp hy2 with ⟨q, hqmem, rfl⟩
  rw [hff.1 q hqmem]
  exact (hrun.2.1 p hpmem).2

/-- **C7.**  In the row assembler, `current_row` is incremented exactly
when the chunk's row path differs from the stored `last_row` or the
resolved column's index is below `last_column` (first conjunct), and is
left unchanged when no column resolves (second conjunct); consequently
the row ordinals passed to the value callback over a table's whole
traversal — the run's emissions followed by the end-of-traversal flush —
never decrease (third conjunct). -/
theorem c7_row_increment_and_monotone :
    (∀ (κ : Type) (cb : κ → Emission → κ × HandlerStatus) (xorMask tableIndex : Nat)
        (st : TableReadState) (k : κ) (ann : AnnChunk) (cols : List FmpColumn)
        (column : FmpColumn),
        st.columns = some cols →
        ¬(pathIsLongString ann st = true ∧ ann.chunk.ctype = .fieldRefSimple ∧
          ann.chunk.refSimple = 0) →
        ¬(resolvedColumnIndex ann st cols.length = 0 ∨
          cols.length < resolvedColumnIndex ann st cols.length) →
        cols.find? (fun c => c.index = resolvedColumnIndex ann st cols.length) =
          some column →
        (pvtFlush cb xorMask tableIndex cols st k column).2.2.2 = false →
        (processValueForTable cb xorMask tableIndex st k ann).1.currentRow =
          st.currentRow +
            (if pathRow ann ≠ st.lastRow ∨ column.index < st.lastColumn then 1 else 0)) ∧
    (∀ (κ : Type) (cb : κ → Emission → κ × HandlerStatus) (xorMask tableIndex : Nat)
        (st : TableReadState) (k : κ) (ann : AnnChunk) (cols : List FmpColumn),
        st.columns = some cols →
        (resolvedColumnIndex ann st cols.length = 0 ∨
          cols.length < resolvedColumnIndex ann st cols.length ∨
          cols.find? (fun c => c.index = resolvedColumnIndex ann st cols.length) =
            none) →
        (processValueForTable cb xorMask tableIndex st k ann).1.currentRow =
          st.currentRow) ∧
    (∀ (κ : Type) (cb : κ → Emission → κ × HandlerStatus) (xorMask tableIndex : Nat)
        (st : TableReadState) (k : κ) (anns : List AnnChunk),
        List.Chain' (· ≤ ·)
          (((processValueRun cb xorMask tableIndex st k anns).2.2.1 ++
            (finalFlush cb xorMask tableIndex
              (processValueRun cb xorMask tableIndex st k anns).1
              (processValueRun cb xorMask tableIndex st k anns).2.1).2).map
            (fun p => p.1.row))) := by
  refine ⟨?_, ?_, ?_⟩
  · intro κ cb xorMask tableIndex st k ann cols column hcols hrich hc hfind hfa
    exact pvt_row_advance cb xorMask tableIndex st k ann cols column
      hcols hrich hc hfind hfa
  · intro κ cb xorMask tableIndex st k ann cols hcols hskip
    rw [pvt_skip_unresolved cb xorMask tableIndex st k ann cols hcols hskip]
  · intro κ cb xorMask tableIndex st k anns
    exact run_rows_with_final_flush cb xorMask tableIndex st k anns

/-- Witness for C7: a concrete chunk that starts a new row increments
`current_row` from 0 to 1; an unresolvable chunk leaves it at 4; a
concrete two-chunk run produces nondecreasing emission rows. -/
theorem c7_row_increment_and_monotone_witness :
    ((processValueForTable (fun (_ : Unit) _ => ((), HandlerStatus.ok)) 0 1
        { currentRow := 0, lastRow := 0, lastColumn := 0, longStringBuf := [],
          columns := some [⟨1, [65], 0, 0⟩] } ()
        ⟨⟨.fieldRefSimple, [66], 1, 0⟩, [[200], [5], [9]], 3, 7⟩).1.currentRow =
      0 + (if pathRow ⟨⟨.fieldRefSimple, [66], 1, 0⟩, [[200], [5], [9]], 3, 7⟩ ≠ 0 ∨
            (⟨1, [65], 0, 0⟩ : FmpColumn).index < 0 then 1 else 0)) ∧
    ((processValueForTable (fun (_ : Unit) _ => ((), HandlerStatus.ok)) 0 1
        { currentRow := 4, lastRow := 9, lastColumn := 1, longStringBuf := [],
          columns := some [⟨1, [65], 0, 0⟩] } ()
        ⟨⟨.fieldRefSimple, [66], 252, 0⟩, [[200], [5], [9]], 3, 7⟩).1.currentRow = 4) ∧
    List.Chain' (· ≤ ·)
      (((processValueRun (fun (_ : Unit) _ => ((), HandlerStatus.ok)) 0 1
          { currentRow := 0, lastRow := 0, lastColumn := 0, longStringBuf := [],
            columns := some [⟨1, [65], 0, 0⟩] } ()
          [⟨⟨.fieldRefSimple, [66], 1, 0⟩, [[200], [5], [9]], 3, 7⟩,
           ⟨⟨.fieldRefSimple, [67], 1, 0⟩, [[200], [5], [10]], 3, 7⟩]).2.2.1 ++
        (finalFlush (fun (_ : Unit) _ => ((), HandlerStatus.ok)) 0 1
          (processValueRun (fun (_ : Unit) _ => ((), HandlerStatus.ok)) 0 1
            { currentRow := 0, lastRow := 0, lastColumn := 0, longStringBuf := [],
              columns := some [⟨1, [65], 0, 0⟩] } ()
            [⟨⟨.fieldRefSimple, [66], 1, 0⟩, [[200], [5], [9]], 3, 7⟩,
             ⟨⟨.fieldRefSimple, [67], 1, 0⟩, [[200], [5], [10]], 3, 7⟩]).1
          (processValueRun (fun (_ : Unit) _ => ((), HandlerStatus.ok)) 0 1
            { currentRow := 0, lastRow := 0, lastColumn := 0, longStringBuf := [],
              columns := some [⟨1, [65], 0, 0⟩] } ()
            [⟨⟨.fieldRefSimple, [66], 1, 0⟩, [[200], [5], [9]], 3, 7⟩,
             ⟨⟨.fieldRefSimple, [67], 1, 0⟩, [[200], [5], [10]], 3, 7⟩]).2.1).2).map
        (fun p => p.1.row)) :=
  ⟨c7_row_increment_and_monotone.1 Unit (fun _ _ => ((), HandlerStatus.ok)) 0 1
      { currentRow := 0, lastRow := 0, lastColumn := 0, longStringBuf := [],
        columns := some [⟨1, [65], 0, 0⟩] } ()
      ⟨⟨.fieldRefSimple, [66], 1, 0⟩, [[200], [5], [9]], 3, 7⟩ [⟨1, [65], 0, 0⟩]
      ⟨1, [65], 0, 0⟩ rfl (by decide) (by decide) (by decide) (by decide),
    c7_row_increment_and_monotone.2.1 Unit (fun _ _ => ((), HandlerStatus.ok)) 0 1
      { currentRow := 4, lastRow := 9, lastColumn := 1, longStringBuf := [],
        columns := some [⟨1, [65], 0, 0⟩] } ()
      ⟨⟨.fieldRefSimple, [66], 252, 0⟩, [[200], [5], [9]], 3, 7⟩ [⟨1, [65], 0, 0⟩]
      rfl (by decide),
    c7_row_increment_and_monotone.2.2 Unit (fun _ _ => ((), HandlerStatus.ok)) 0 1
      { currentRow := 0, lastRow := 0, lastColumn := 0, longStringBuf := [],
        columns := some [⟨1, [65], 0, 0⟩] } ()
      [⟨⟨.fieldRefSimple, [66], 1, 0⟩, [[200], [5], [9]], 3, 7⟩,
       ⟨⟨.fieldRefSimple, [67], 1, 0⟩, [[200], [5], [10]], 3, 7⟩]⟩

/-- When the flush boundary does not abort, every flush emission was
answered `OK`. -/
theorem pvtFlush_statuses {κ : Type} (cb : κ → Emission → κ × HandlerStatus)
    (xorMask tableIndex : Nat) (cols : List FmpColumn) (st : TableReadState)
    (k : κ) (column : FmpColumn)
    (hfa : (pvtFlush cb xorMask tableIndex cols st k column).2.2.2 = false) :
    ∀ p ∈ (pvtFlush cb xorMask tableIndex cols st k column).2.2.1,
      p.2 = HandlerStatus.ok := by
  by_cases h1 : column.index ≠ st.lastColumn ∧ st.longStringBuf ≠ []
  · rw [pvtFlush, if_pos h1] at hfa ⊢
    by_cases h2 : 0 < st.lastColumn
    · rw [if_pos h2] at hfa ⊢
      rcases hf : cols.find? (fun c => c.index = st.lastColumn) with _ | lastCol <;>
        simp only [hf] at hfa ⊢
      · simp
      · rcases hcb : (cb k ⟨tableIndex, st.currentRow, lastCol,
            convertBytes xorMask st.longStringBuf⟩).2 with _ | _ <;>
          simp only [hcb] at hfa ⊢
        · simp
        · simp at hfa
    · rw [if_neg h2] at hfa ⊢
      simp
  · rw [pvtFlush, if_neg h1] at hfa ⊢
    simp

/-- If some emission of a `process_value_for_table` step was answered
`ABORT`, the step's chunk status is `ABORT`. -/
theorem pvt_abort_of_emission_abort {κ : Type} (cb : κ → Emission → κ × HandlerStatus)
    (xorMask tableIndex : Nat) (st : TableReadState) (k : κ) (ann : AnnChunk) :
    ∀ p ∈ (processValueForTable cb xorMask tableIndex st k ann).2.2.1,
      p.2 = HandlerStatus.abort →
        (processValueForTable cb xorMask tableIndex st k ann).2.2.2 =
          ChunkStatus.abort := by
  intro p hp hab
  rcases hcols : st.columns with _ | cols
  · simp [processValueForTable, hcols] at hp
  by_cases hrich : pathIsLongString ann st = true ∧ ann.chunk.ctype = .fieldRefSimple ∧
      ann.chunk.refSimple = 0
  · simp [processValueForTable, hcols, if_pos hrich] at hp
  by_cases hc : resolvedColumnIndex ann st cols.length = 0 ∨
      cols.length < resolvedColumnIndex ann st cols.length
  · simp [processValueForTable, hcols, if_neg hrich, if_pos hc] at hp
  rcases hfind : cols.find? (fun c => c.index = resolvedColumnIndex ann st cols.length)
    with _ | column
  · simp [processValueForTable, hcols, if_neg hrich, if_neg hc, hfind] at hp
  by_cases hfa : (pvtFlush cb xorMask tableIndex cols st k column).2.2.2 = true
  · simp only [processValueForTable, hcols, if_neg hrich, if_neg hc, hfind, hfa,
      eq_self_iff_true, if_true]
  · rw [Bool.not_eq_true] at hfa
    have hok := pvtFlush_statuses cb xorMask tableIndex cols st k column hfa
    simp only [processValueForTable, hcols, if_neg hrich, if_neg hc, hfind, hfa,
      Bool.false_eq_true, if_false] at hp ⊢
    set fl := pvtFlush cb xorMask tableIndex cols st k column with hfl
    set st2 := if pathRow ann ≠ fl.1.lastRow ∨ column.index < fl.1.lastColumn then
        { fl.1 with currentRow := fl.1.currentRow + 1 } else fl.1 with hst2
    by_cases hlsb : pathIsLongString ann st = true
    · simp only [hlsb, eq_self_iff_true, if_true] at hp ⊢
      have := hok p hp
      rw [this] at hab
      exact absurd hab (by simp)
    · rw [Bool.not_eq_true] at hlsb
      simp only [hlsb, Bool.false_eq_true, if_false] at hp ⊢
      rcases hcb : (cb fl.2.1 ⟨tableIndex, st2.currentRow, column,
          convertBytes xorMask ann.chunk.data⟩).2 with _ | _ <;>
        simp only [hcb] at hp ⊢
      rcases List.mem_append.mp hp with hp2 | hp2
      · have := hok p hp2
        rw [this] at hab
        exact absurd hab (by simp)
      · have hp3 := List.mem_singleton.mp hp2
        rw [hp3] at hab
        exact absurd hab (by simp)

/-- `ensure_table_state` does not touch the emission trace. -/
theorem ensureTableState_emTrace {κ : Type} (md : FmpMetadata) (rs : RAVState κ)
    (ti : Nat) : (ensureTableState md rs ti).emTrace = rs.emTrace := rfl

set_option maxRecDepth 8000 in
/-- The read-all consumer only appends to the emission trace, and if an
appended emission was answered `ABORT`, the consumer's chunk status is
`ABORT`. -/
theorem hrav_emTrace {κ : Type} (cb : κ → Emission → κ × HandlerStatus)
    (xorMask : Nat) (md : FmpMetadata) (rs : RAVState κ) (ann : AnnChunk) :
    ∃ new, (handleChunkReadAllValues cb xorMask md rs ann).1.emTrace =
        rs.emTrace ++ new ∧
      (∀ p ∈ new, p.2 = HandlerStatus.abort →
        (handleChunkReadAllValues cb xorMask md rs ann).2 = ChunkStatus.abort) := by
  unfold handleChunkReadAllValues
  by_cases hv : 7 ≤ ann.versionNum <;> simp only [hv, if_true, if_false, if_neg, if_pos]
  · unfold handleChunkReadAllValuesV7
    by_cases h0 : pathValue ann.versionNum (pget ann 0) < 128
    · exact ⟨[], by simp [h0], by simp⟩
    · simp only [if_neg h0]
      rcases ht : md.tables.find? (fun t =>
          t.index = pathValue ann.versionNum (pget ann 0) - 128) with _ | table <;>
        simp only [ht]
      · exact ⟨[], by simp, by simp⟩
      · by_cases hskip : table.skip = true
        · simp only [hskip, if_true]
          exact ⟨[], by simp, by simp⟩
        · rw [Bool.not_eq_true] at hskip
          simp only [hskip, Bool.false_eq_true, if_false]
          by_cases hty : ann.chunk.ctype ≠ ChunkType.fieldRefSimple ∧
              ann.chunk.ctype ≠ ChunkType.dataSegment
          · rw [if_pos hty]
            exact ⟨[], by simp [ensureTableState_emTrace], by simp⟩
          · rw [if_neg hty]
            refine ⟨(processValueForTable cb xorMask
                (pathValue ann.versionNum (pget ann 0) - 128)
                ((ensureTableState md rs
                  (pathValue ann.versionNum (pget ann 0) - 128)).states
                  (pathValue ann.versionNum (pget ann 0) - 128))
                (ensureTableState md rs
                  (pathValue ann.versionNum (pget ann 0) - 128)).k ann).2.2.1,
              rfl, fun p hp hab => ?_⟩
            exact pvt_abort_of_emission_abort cb xorMask _ _ _ ann p hp hab
  · unfold handleChunkReadAllValuesV3
    by_cases h0 : 3 < pathValue ann.versionNum (pget ann 0)
    · rw [if_pos h0]
      exact ⟨[], by simp, by simp⟩
    · rw [if_neg h0]
      by_cases hty : ann.chunk.ctype ≠ ChunkType.fieldRefSimple ∧
          ann.chunk.ctype ≠ ChunkType.dataSegment
      · rw [if_pos hty]
        exact ⟨[], by simp [ensureTableState_emTrace], by simp⟩
      · rw [if_neg hty]
        refine ⟨(processValueForTable cb xorMask 1
            ((ensureTableState md rs 1).states 1)
            (ensureTableState md rs 1).k ann).2.2.1,
          rfl, fun p hp hab => ?_⟩
        exact pvt_abort_of_emission_abort cb xorMask _ _ _ ann p hp hab



/-- A `DONE` answer ends the chunk chain: the chunk that received it is
the last delivered chunk of the chain, and the chain reports `FMP_OK`. -/
theorem chainAux_done_last {σ : Type} (handler : σ → AnnChunk → σ × ChunkStatus)
    (v : Nat) (chunks : List FmpChunk) :
    ∀ (ps : PathState) (s : σ) (i : Nat) (p : AnnChunk × ChunkStatus),
      (processChunkChainAux handler v ps s chunks).1.get? i = some p → p.2 = .done →
        i = (processChunkChainAux handler v ps s chunks).1.length - 1 ∧
          (processChunkChainAux handler v ps s chunks).2.2.2 = .ok := by
  induction chunks with
  | nil => intro ps s i p hp hd; simp [processChunkChainAux] at hp
  | cons c rest ih =>
    intro ps s i p hp hd
    rw [processChunkChainAux] at hp ⊢
    rcases hst : (handler s (processChunk v ps c).1).2 with _ | _ | _ <;>
      simp only [hst] at hp ⊢
    case abort =>
      rcases i with _ | j
      · simp only [List.get?] at hp
        injection hp with hp
        subst hp
        simp at hd
      · simp [List.get?] at hp
    case done =>
      rcases i with _ | j
      · constructor <;> trivial
      · simp [List.get?] at hp
    case next =>
      rcases i with _ | j
      · simp only [List.get?] at hp
        injection hp with hp
        subst hp
        simp at hd
      · simp only [List.get?] at hp
        have h2 := ih _ _ j p hp hd
        refine ⟨?_, h2.2⟩
        have hne : (processChunkChainAux handler v (processChunk v ps c).2
            (handler s (processChunk v ps c).1).1 rest).1 ≠ [] := by
          intro hnil
          rw [hnil] at hp
          simp [List.get?] at hp
        have hlen : 0 < (processChunkChainAux handler v (processChunk v ps c).2
            (handler s (processChunk v ps c).1).1 rest).1.length :=
          List.length_pos.mpr hne
        simp only [List.length_cons]
        omega

/-- An `ABORT` answer ends the chunk chain with `FMP_ERROR_USER_ABORTED`:
the chunk that received it is the last delivered chunk. -/
theorem chainAux_abort_last {σ : Type} (handler : σ → AnnChunk → σ × ChunkStatus)
    (v : Nat) (chunks : List FmpChunk) :
    ∀ (ps : PathState) (s : σ) (i : Nat) (p : AnnChunk × ChunkStatus),
      (processChunkChainAux handler v ps s chunks).1.get? i = some p → p.2 = .abort →
        i = (processChunkChainAux handler v ps s chunks).1.length - 1 ∧
          (processChunkChainAux handler v ps s chunks).2.2.2 = .err .userAborted := by
  induction chunks with
  | nil => intro ps s i p hp hd; simp [processChunkChainAux] at hp
  | cons c rest ih =>
    intro ps s i p hp hd
    rw [processChunkChainAux] at hp ⊢
    rcases hst : (handler s (processChunk v ps c).1).2 with _ | _ | _ <;>
      simp only [hst] at hp ⊢
    case abort =>
      rcases i with _ | j
      · constructor <;> trivial
      · simp [List.get?] at hp
    case done =>
      rcases i with _ | j
      · simp only [List.get?] at hp
        injection hp with hp
        subst hp
        simp at hd
      · simp [List.get?] at hp
    case next =>
      rcases i with _ | j
      · simp only [List.get?] at hp
        injection hp with hp
        subst hp
        simp at hd
      · simp only [List.get?] at hp
        have h2 := ih _ _ j p hp hd
        refine ⟨?_, h2.2⟩
        have hne : (processChunkChainAux handler v (processChunk v ps c).2
            (handler s (processChunk v ps c).1).1 rest).1 ≠ [] := by
          intro hnil
          rw [hnil] at hp
          simp [List.get?] at hp
        have hlen : 0 < (processChunkChainAux handler v (processChunk v ps c).2
            (handler s (processChunk v ps c).1).1 rest).1.length :=
          List.length_pos.mpr hne
        simp only [List.length_cons]
        omega

/-- **C4 (counterexample).**  The consumer answers `DONE` to every chunk,
so it answers `DONE` to the chunk of block ordinal 2 — yet the chunk of
block ordinal 3 (`ref_simple = 2`) is still delivered afterwards, and the
traversal returns success: `CHUNK_DONE` does not stop the block-level
traversal, contrary to the claim. -/
theorem c4_counterexample_done_reaches_later_blocks :
    ((processBlocks alwaysDone 7 demoBlocks 3 ()).1.map
        (fun p => (p.1.chunk.refSimple, p.2)) =
      [(1, ChunkStatus.done), (2, ChunkStatus.done)])
    ∧ (processBlocks alwaysDone 7 demoBlocks 3 ()).2.2 = FmpRes.ok := by
  exact ⟨rfl, rfl⟩

/-- **C4 (amended).**  When a consumer returns `DONE` for some chunk, the
dispatcher stops delivering the remaining chunks of the *current block's*
chain (the `DONE` chunk is the last delivered of that chain) and the
chain reports success to `process_blocks`, which then continues with the
next block in the chain. -/
theorem c4_done_stops_current_chain {σ : Type} (handler : σ → AnnChunk → σ × ChunkStatus)
    (versionNum : Nat) (ps : PathState) (s : σ) (chunks : List FmpChunk)
    (i : Nat) (p : AnnChunk × ChunkStatus)
    (hp : (processChunkChain handler versionNum ps s chunks).1.get? i = some p)
    (hd : p.2 = .done) :
    i = (processChunkChain handler versionNum ps s chunks).1.length - 1 ∧
      (processChunkChain handler versionNum ps s chunks).2.2.2 = .ok :=
  chainAux_done_last handler versionNum chunks _ s i p hp hd

/-- Witness for the amended C4: a concrete chain of two chunks whose
first answer is `DONE`; the theorem shows it is the last delivered chunk
and that the chain reports success. -/
theorem c4_done_stops_current_chain_witness :
    0 = (processChunkChain alwaysDone 7 ⟨[], 0⟩ ()
          [⟨.fieldRefSimple, [], 1, 0⟩, ⟨.fieldRefSimple, [], 2, 0⟩]).1.length - 1 ∧
      (processChunkChain alwaysDone 7 ⟨[], 0⟩ ()
          [⟨.fieldRefSimple, [], 1, 0⟩, ⟨.fieldRefSimple, [], 2, 0⟩]).2.2.2 = .ok :=
  c4_done_stops_current_chain alwaysDone 7 ⟨[], 0⟩ ()
    [⟨.fieldRefSimple, [], 1, 0⟩, ⟨.fieldRefSimple, [], 2, 0⟩] 0
    (⟨⟨.fieldRefSimple, [], 1, 0⟩, [], 0, 7⟩, ChunkStatus.done) (by decide) rfl

/-- Along one chunk chain, an `ABORT`-answered emission in the final
trace either predates the chain or is matched by an `ABORT` chunk status
in the chain's delivered trace. -/
theorem chainAux_emTrace_abort {κ : Type}
    (cb : κ → Emission → κ × HandlerStatus) (xorMask : Nat) (md : FmpMetadata)
    (v : Nat) (chunks : List FmpChunk) :
    ∀ (ps : PathState) (rs : RAVState κ) (p : Emission × HandlerStatus),
      p ∈ (processChunkChainAux (handleChunkReadAllValues cb xorMask md) v
        ps rs chunks).2.2.1.emTrace →
      p.2 = HandlerStatus.abort →
      p ∈ rs.emTrace ∨
        ∃ q ∈ (processChunkChainAux (handleChunkReadAllValues cb xorMask md) v
          ps rs chunks).1, q.2 = ChunkStatus.abort := by
  induction chunks with
  | nil =>
    intro ps rs p hp hab
    exact Or.inl hp
  | cons c rest ih =>
    intro ps rs p hp hab
    rw [processChunkChainAux] at hp ⊢
    obtain ⟨new, hemt, habimp⟩ :=
      hrav_emTrace cb xorMask md rs (processChunk v ps c).1
    rcases hst : (handleChunkReadAllValues cb xorMask md rs
        (processChunk v ps c).1).2 with _ | _ | _ <;>
      simp only [hst] at hp ⊢
    case abort =>
      exact Or.inr ⟨((processChunk v ps c).1, ChunkStatus.abort), by simp, rfl⟩
    case done =>
      rw [hemt] at hp
      rcases List.mem_append.mp hp with hp2 | hp2
      · exact Or.inl hp2
      · have := habimp p hp2 hab
        rw [hst] at this
        exact absurd this (by simp)
    case next =>
      rcases ih (processChunk v ps c).2
          (handleChunkReadAllValues cb xorMask md rs (processChunk v ps c).1).1 p hp hab
        with hleft | ⟨q, hq, hqab⟩
      · rw [hemt] at hleft
        rcases List.mem_append.mp hleft with hp2 | hp2
        · exact Or.inl hp2
        · have := habimp p hp2 hab
          rw [hst] at this
          exact absurd this (by simp)
      · exact Or.inr ⟨q, List.mem_cons_of_mem _ hq, hqab⟩

/-- Across the block traversal, an `ABORT`-answered emission in the final
trace either predates the traversal or is matched by an `ABORT` chunk
status in the delivered trace. -/
theorem blocksAux_emTrace_abort {κ : Type}
    (cb : κ → Emission → κ × HandlerStatus) (xorMask : Nat) (md : FmpMetadata)
    (v : Nat) (blocks : List FmpBlock) (numBlocks : Nat) :
    ∀ (iterLeft nextBlock : Nat) (visited : List Nat) (ps : PathState)
      (rs : RAVState κ) (p : Emission × HandlerStatus),
      p ∈ (processBlocksAux (handleChunkReadAllValues cb xorMask md) v blocks
        numBlocks iterLeft nextBlock visited ps rs).2.1.emTrace →
      p.2 = HandlerStatus.abort →
      p ∈ rs.emTrace ∨
        ∃ q ∈ (processBlocksAux (handleChunkReadAllValues cb xorMask md) v blocks
          numBlocks iterLeft nextBlock visited ps rs).1, q.2 = ChunkStatus.abort := by
  intro iterLeft
  induction iterLeft with
  | zero =>
    intro nextBlock visited ps rs p hp hab
    rw [processBlocksAux] at hp ⊢
    rcases hb : blocks.get? (nextBlock - 1) with _ | b <;> simp only [hb] at hp ⊢
    · exact Or.inl hp
    · by_cases hv : numBlocks < 100000 ∧ nextBlock - 1 < numBlocks ∧
          (nextBlock - 1) ∈ visited
      · simp only [if_pos hv] at hp ⊢
        exact Or.inl hp
      · simp only [if_neg hv] at hp ⊢
        exact chainAux_emTrace_abort cb xorMask md v b.chunks _ rs p hp hab
  | succ k ih =>
    intro nextBlock visited ps rs p hp hab
    rw [processBlocksAux] at hp ⊢
    rcases hb : blocks.get? (nextBlock - 1) with _ | b <;> simp only [hb] at hp ⊢
    · exact Or.inl hp
    · by_cases hv : numBlocks < 100000 ∧ nextBlock - 1 < numBlocks ∧
          (nextBlock - 1) ∈ visited
      · simp only [if_pos hv] at hp ⊢
        exact Or.inl hp
      · simp only [if_neg hv] at hp ⊢
        by_cases hc : b.nextId ≠ 0 ∧ b.nextId - 1 < numBlocks ∧
            (processChunkChain (handleChunkReadAllValues cb xorMask md) v ps rs
              b.chunks).2.2.2 = FmpRes.ok
        · simp only [if_pos hc] at hp ⊢
          rcases ih b.nextId _ _ _ p hp hab with hleft | ⟨q, hq, hqab⟩
          · rcases chainAux_emTrace_abort cb xorMask md v b.chunks _ rs p hleft hab
              with hl2 | ⟨q, hq, hqab⟩
            · exact Or.inl hl2
            · exact Or.inr ⟨q, List.mem_append.mpr (Or.inl hq), hqab⟩
          · exact Or.inr ⟨q, List.mem_append.mpr (Or.inr hq), hqab⟩
        · simp only [if_neg hc] at hp ⊢
          exact chainAux_emTrace_abort cb xorMask md v b.chunks _ rs p hp hab

/-- An `ABORT` chunk status is final across the block traversal: the
chunk that received it is the last delivered chunk of the whole pass,
and the traversal returns `FMP_ERROR_USER_ABORTED`. -/
theorem blocksAux_abort_last {σ : Type} (handler : σ → AnnChunk → σ × ChunkStatus)
    (v : Nat) (blocks : List FmpBlock) (numBlocks : Nat) :
    ∀ (iterLeft nextBlock : Nat) (visited : List Nat) (ps : PathState) (s : σ)
      (i : Nat) (p : AnnChunk × ChunkStatus),
      (processBlocksAux handler v blocks numBlocks iterLeft nextBlock visited
        ps s).1.get? i = some p →
      p.2 = ChunkStatus.abort →
      i = (processBlocksAux handler v blocks numBlocks iterLeft nextBlock visited
        ps s).1.length - 1 ∧
      (processBlocksAux handler v blocks numBlocks iterLeft nextBlock visited
        ps s).2.2 = FmpRes.err .userAborted := by
  intro iterLeft
  induction iterLeft with
  | zero =>
    intro nextBlock visited ps s i p hp hab
    rw [processBlocksAux] at hp ⊢
    rcases hb : blocks.get? (nextBlock - 1) with _ | b <;> simp only [hb] at hp ⊢
    · simp [List.get?] at hp
    · by_cases hv : numBlocks < 100000 ∧ nextBlock - 1 < numBlocks ∧
          (nextBlock - 1) ∈ visited
      · simp only [if_pos hv] at hp
        simp [List.get?] at hp
      · simp only [if_neg hv] at hp ⊢
        exact chainAux_abort_last handler v b.chunks _ s i p hp hab
  | succ k ih =>
    intro nextBlock visited ps s i p hp hab
    rw [processBlocksAux] at hp ⊢
    rcases hb : blocks.get? (nextBlock - 1) with _ | b <;> simp only [hb] at hp ⊢
    · simp [List.get?] at hp
    · by_cases hv : numBlocks < 100000 ∧ nextBlock - 1 < numBlocks ∧
          (nextBlock - 1) ∈ visited
      · simp only [if_pos hv] at hp
        simp [List.get?] at hp
      · simp only [if_neg hv] at hp ⊢
        by_cases hc : b.nextId ≠ 0 ∧ b.nextId - 1 < numBlocks ∧
            (processChunkChain handler v ps s b.chunks).2.2.2 = FmpRes.ok
        · simp only [if_pos hc] at hp ⊢
          by_cases hlt : i < (processChunkChain handler v ps s b.chunks).1.length
          · rw [List.get?_append hlt] at hp
            have hcl := chainAux_abort_last handler v b.chunks _ s i p hp hab
            have h3 : (processChunkChain handler v ps s b.chunks).2.2.2 =
                FmpRes.err .userAborted := hcl.2
            rw [h3] at hc
            simp at hc
          · push_neg at hlt
            rw [List.get?_append_right hlt] at hp
            have h2 := ih b.nextId _ _ _
              (i - (processChunkChain handler v ps s b.chunks).1.length) p hp hab
            have hbound : i - (processChunkChain handler v ps s b.chunks).1.length <
                (processBlocksAux handler v blocks numBlocks k b.nextId
                  (if numBlocks < 100000 ∧ nextBlock - 1 < numBlocks then
                    (nextBlock - 1) :: visited
                  else visited) (processChunkChain handler v ps s b.chunks).2.1
                  (processChunkChain handler v ps s b.chunks).2.2.1).1.length := by
              rcases List.get?_eq_some.mp hp with ⟨hh, _⟩
              exact hh
            refine ⟨?_, h2.2⟩
            rw [List.length_append]
            omega
        · simp only [if_neg hc] at hp ⊢
          exact chainAux_abort_last handler v b.chunks _ s i p hp hab

/-- **C5.**  Whenever the value callback answers `ABORT` during
`fmp_read_all_values` — that is, some dispatch-phase emission carries the
`ABORT` answer — the whole traversal stops: the chunk that triggered it
is the last chunk delivered through the dispatcher, and the operation
returns `FMP_ERROR_USER_ABORTED` to its caller. -/
theorem c5_callback_abort_stops_traversal {κ : Type}
    (cb : κ → Emission → κ × HandlerStatus) (xorMask versionNum : Nat)
    (md : FmpMetadata) (blocks : List FmpBlock) (numBlocks : Nat) (k0 : κ) :
    ∀ p ∈ (readAllValues cb xorMask versionNum md blocks numBlocks k0).2.1.emTrace,
      p.2 = HandlerStatus.abort →
      (readAllValues cb xorMask versionNum md blocks numBlocks k0).2.2.1 =
        FmpRes.err .userAborted ∧
      ((readAllValues cb xorMask versionNum md blocks numBlocks k0).1.map
        (fun q => q.2)).getLast? = some ChunkStatus.abort := by
  intro p hp hab
  rcases blocksAux_emTrace_abort cb xorMask md versionNum blocks numBlocks
      (2 * numBlocks) 2 [] ⟨[], 0⟩ ⟨fun _ => {}, 0, k0, []⟩ p hp hab
    with h0 | ⟨q, hq, hqab⟩
  · exact absurd h0 (List.not_mem_nil p)
  · rcases List.mem_iff_get?.mp hq with ⟨i, hi⟩
    have hlast := blocksAux_abort_last (handleChunkReadAllValues cb xorMask md)
      versionNum blocks numBlocks (2 * numBlocks) 2 [] ⟨[], 0⟩
      ⟨fun _ => {}, 0, k0, []⟩ i q hi hqab
    refine ⟨hlast.2, ?_⟩
    have hgl : (processBlocks (handleChunkReadAllValues cb xorMask md) versionNum
        blocks numBlocks ⟨fun _ => {}, 0, k0, []⟩).1.getLast? = some q := by
      rw [List.getLast?_eq_getElem?, ← List.get?_eq_getElem?]
      rw [show (processBlocks (handleChunkReadAllValues cb xorMask md) versionNum
          blocks numBlocks
          (⟨fun _ => {}, 0, k0, []⟩ : RAVState κ)).1.length - 1 = i from hlast.1.symm]
      exact hi
    show ((processBlocks (handleChunkReadAllValues cb xorMask md) versionNum blocks
        numBlocks ⟨fun _ => {}, 0, k0, []⟩).1.map (fun q => q.2)).getLast? =
      some ChunkStatus.abort
    rw [List.getLast?_map, hgl]
    simp [hqab]

set_option maxRecDepth 40000 in
/-- Witness for C5: a concrete traversal in which the callback answers
`ABORT` to the first emitted value; the theorem shows the operation
returns `FMP_ERROR_USER_ABORTED` and that the aborting chunk is the last
one delivered. -/
theorem c5_callback_abort_stops_traversal_witness :
    (readAllValues (fun (_ : Unit) _ => ((), HandlerStatus.abort)) 0 7 demoMd
      demoValueBlocks 2 ()).2.2.1 = FmpRes.err .userAborted ∧
    ((readAllValues (fun (_ : Unit) _ => ((), HandlerStatus.abort)) 0 7 demoMd
      demoValueBlocks 2 ()).1.map (fun q => q.2)).getLast? =
      some ChunkStatus.abort :=
  c5_callback_abort_stops_traversal (fun (_ : Unit) _ => ((), HandlerStatus.abort))
    0 7 demoMd demoValueBlocks 2 ()
    (⟨2, 1, ⟨1, [65], 0, 0⟩, [66]⟩, HandlerStatus.abort) (by decide) rfl

/-- The column-array compaction loop, started from any accumulator,
appends exactly the nonzero-index entries in order. -/
theorem compactColumnsArray_foldl (l : List FmpColumn) :
    ∀ acc : List FmpColumn,
      l.foldl (fun acc c => if c.index ≠ 0 then acc ++ [c] else acc) acc =
        acc ++ l.filter (fun c => c.index ≠ 0) := by
  induction l with
  | nil => intro acc; simp
  | cons c t ih =>
    intro acc
    rw [List.foldl_cons]
    by_cases hc : c.index ≠ 0
    · rw [if_pos hc, ih, List.filter_cons_of_pos (by simpa using hc)]
      simp
    · rw [if_neg hc, ih, List.filter_cons_of_neg (by simpa using hc)]

/-- The in-place column-array compaction retains exactly the entries
with nonzero index, in their original relative order. -/
theorem compactColumnsArray_eq_filter (l : List FmpColumn) :
    compactColumnsArray l = l.filter (fun c => c.index ≠ 0) := by
  rw [compactColumnsArray, compactColumnsArray_foldl]
  simp

/-- The key loop of the column-map compaction applies the array
compaction to every key in its window and leaves all other keys
untouched. -/
theorem compactColumnsMapsAux_spec (cap count : Nat) :
    ∀ (fuel t : Nat) (cols : Nat → Option (List FmpColumn)),
      (∀ j, t ≤ j → j < t + fuel → j ≤ count ∧ j < cap) →
      (∀ j, t ≤ j → j < t + fuel →
        compactColumnsMapsAux cap count t fuel cols j =
          (cols j).map compactColumnsArray) ∧
      (∀ j, j < t ∨ t + fuel ≤ j →
        compactColumnsMapsAux cap count t fuel cols j = cols j) := by
  intro fuel
  induction fuel with
  | zero =>
    intro t cols hcond
    exact ⟨fun j h1 h2 => by omega, fun j hj => rfl⟩
  | succ f ih =>
    intro t cols hcond
    rw [compactColumnsMapsAux]
    have hct : t ≤ count ∧ t < cap := hcond t le_rfl (by omega)
    rw [if_pos hct]
    set cols1 := (match cols t with
      | some arr => fun j => if j = t then some (compactColumnsArray arr) else cols j
      | none => cols) with hcols1
    have hc1t : cols1 t = (cols t).map compactColumnsArray := by
      rw [hcols1]
      rcases h : cols t with _ | arr <;> simp [h]
    have hc1other : ∀ j, j ≠ t → cols1 j = cols j := by
      intro j hj
      rw [hcols1]
      rcases h : cols t with _ | arr <;> simp [h, hj]
    have hIH := ih (t + 1) cols1 (fun j h1 h2 => hcond j (by omega) (by omega))
    constructor
    · intro j h1 h2
      by_cases hjt : j = t
      · subst hjt
        rw [hIH.2 j (Or.inl (by omega)), hc1t]
      · rw [hIH.1 j (by omega) (by omega), hc1other j hjt]
    · intro j hj
      rcases hj with hj | hj
      · rw [hIH.2 j (Or.inl (by omega)), hc1other j (by omega)]
      · rw [hIH.2 j (Or.inr (by omega)), hc1other j (by omega)]

/-- Unfolding `keptSlotsFrom` over a cons cell. -/
theorem keptSlotsFrom_cons (n : Nat) (tb : FmpTable) (rest : List FmpTable) :
    keptSlotsFrom n (tb :: rest) =
      if tb.index ≠ 0 then n :: keptSlotsFrom (n + 1) rest
      else keptSlotsFrom (n + 1) rest := by
  rw [keptSlotsFrom,
    show List.enumFrom n (tb :: rest) = (n, tb) :: List.enumFrom (n + 1) rest from rfl]
  by_cases h : tb.index ≠ 0
  · rw [if_pos h, List.filter_cons_of_pos (by simpa using h)]
    rfl
  · rw [if_neg h, List.filter_cons_of_neg (by simpa using h)]
    rfl

/-- Invariant of the table-compaction fold: starting from state `st`
after the first `n` slots, the fold over the remaining enumerated tables
appends exactly the nonzero-index tables to the kept prefix, keeps the
capacity, preserves the already re-keyed prefix of the columns map,
re-keys each newly kept table's columns from its original slot, and
leaves keys beyond the processed range at their original values. -/
theorem compactTables_fold (cap0 : Nat) (cols0 : Nat → Option (List FmpColumn)) :
    ∀ (rest : List FmpTable) (n : Nat) (st : CompactState),
      st.cap = cap0 →
      st.out.length ≤ n →
      (∀ idx, n + 1 ≤ idx → st.cols idx = cols0 idx) →
      (∀ i, i < rest.length → n + i + 1 < cap0) →
      (∀ i, i < rest.length → (rest.getD i ⟨0, [], false⟩).index ≠ 0 →
        (cols0 (n + i + 1)).isSome = true) →
      ((rest.enumFrom n).foldl (fun s p => compactTablesStep s p.1 p.2) st).out =
          st.out ++ rest.filter (fun tb => tb.index ≠ 0) ∧
      ((rest.enumFrom n).foldl (fun s p => compactTablesStep s p.1 p.2) st).cap =
          cap0 ∧
      (∀ t, t < st.out.length →
        ((rest.enumFrom n).foldl (fun s p => compactTablesStep s p.1 p.2) st).cols
            (t + 1) = st.cols (t + 1)) ∧
      (∀ t, t < (rest.filter (fun tb => tb.index ≠ 0)).length →
        ((rest.enumFrom n).foldl (fun s p => compactTablesStep s p.1 p.2) st).cols
            (st.out.length + t + 1) =
          cols0 ((keptSlotsFrom n rest).getD t 0 + 1)) ∧
      (∀ idx, n + rest.length + 1 ≤ idx →
        ((rest.enumFrom n).foldl (fun s p => compactTablesStep s p.1 p.2) st).cols
            idx = cols0 idx) := by
  intro rest
  induction rest with
  | nil =>
    intro n st hcap hlen hcols hcapb hsome
    refine ⟨by simp [List.enumFrom], by simpa [List.enumFrom] using hcap,
      fun t ht => by simp [List.enumFrom], fun t ht => by simp at ht,
      fun idx hidx => by simpa [List.enumFrom] using hcols idx (by omega)⟩
  | cons tb rest' ih =>
    intro n st hcap hlen hcols hcapb hsome
    rw [show List.enumFrom n (tb :: rest') = (n, tb) :: List.enumFrom (n + 1) rest'
      from rfl, List.foldl_cons]
    by_cases hidx0 : tb.index ≠ 0
    case neg =>
      push_neg at hidx0
      have hst1eq : compactTablesStep st n tb = st := by
        rw [compactTablesStep, if_neg (by simp [hidx0])]
      rw [hst1eq]
      have hr := ih (n + 1) st hcap (by omega)
        (fun idx hidx => hcols idx (by omega))
        (fun i hi => by have := hcapb (i + 1) (by simp; omega); omega)
        (fun i hi h => by
          have := hsome (i + 1) (by simp; omega) (by simpa using h)
          simpa [show n + (i + 1) + 1 = n + 1 + i + 1 from by omega] using this)
      rw [List.filter_cons_of_neg (by simp [hidx0]), keptSlotsFrom_cons,
        if_neg (by simp [hidx0])]
      refine ⟨hr.1, hr.2.1, hr.2.2.1, hr.2.2.2.1, fun idx hidx =>
        hr.2.2.2.2 idx (by simp at hidx ⊢; omega)⟩
    case pos =>
      by_cases hne : n ≠ st.out.length
      case neg =>
        push_neg at hne
        have hst1eq : compactTablesStep st n tb =
            { st with out := st.out ++ [tb] } := by
          rw [compactTablesStep, if_pos (by simpa using hidx0), if_neg (by omega)]
        rw [hst1eq]
        have hr := ih (n + 1) { st with out := st.out ++ [tb] } hcap
          (by simp; omega)
          (fun idx hidx => hcols idx (by omega))
          (fun i hi => by have := hcapb (i + 1) (by simp; omega); omega)
          (fun i hi h => by
            have := hsome (i + 1) (by simp; omega) (by simpa using h)
            simpa [show n + (i + 1) + 1 = n + 1 + i + 1 from by omega] using this)
        rw [List.filter_cons_of_pos (by simpa using hidx0), keptSlotsFrom_cons,
          if_pos (by simpa using hidx0)]
        refine ⟨by rw [hr.1]; simp, hr.2.1, ?_, ?_, fun idx hidx =>
          hr.2.2.2.2 idx (by simp at hidx ⊢; omega)⟩
        · intro t ht
          exact hr.2.2.1 t (by simp; omega)
        · intro t ht
          rcases t with _ | t'
          · have h0 := hr.2.2.1 st.out.length (by simp)
            rw [show st.out.length + 0 + 1 = st.out.length + 1 from by omega, h0]
            have h1 := hcols (n + 1) (by omega)
            simp only [List.getD_cons_zero]
            rw [← hne]
            exact h1
          · have h2 := hr.2.2.2.1 t' (by simp at ht ⊢; omega)
            simp only [List.getD_cons_succ]
            rw [show st.out.length + (t' + 1) + 1 =
              ({ st with out := st.out ++ [tb] } : CompactState).out.length + t' + 1
              from by simp; omega]
            exact h2
      case pos =>
        have houtlt : st.out.length < n := by omega
        have hsometb : (cols0 (n + 1)).isSome = true := by
          have := hsome 0 (by simp) (by simpa using hidx0)
          simpa using this
        have hguard : n + 1 < st.cap ∧ (st.cols (n + 1)).isSome = true := by
          constructor
          · rw [hcap]
            have := hcapb 0 (by simp)
            omega
          · rw [hcols (n + 1) (by omega)]
            exact hsometb
        have hnotens : ¬ st.cap ≤ st.out.length + 1 := by
          rw [hcap]
          have := hcapb 0 (by simp)
          omega
        have hst1eq : compactTablesStep st n tb =
            { out := st.out ++ [tb],
              cols := fun j =>
                if j = st.out.length + 1 then st.cols (n + 1)
                else if j = n + 1 then none
                else st.cols j,
              cap := st.cap } := by
          rw [compactTablesStep, if_pos (by simpa using hidx0), if_pos hne,
            if_pos hguard, if_neg hnotens]
        rw [hst1eq]
        set colsB : Nat → Option (List FmpColumn) := fun j =>
          if j = st.out.length + 1 then st.cols (n + 1)
          else if j = n + 1 then none
          else st.cols j with hcolsB
        have hr := ih (n + 1) ⟨st.out ++ [tb], colsB, st.cap⟩ hcap
          (by simp; omega)
          (fun idx hidx => by
            have h1 : idx ≠ st.out.length + 1 := by omega
            have h2 : idx ≠ n + 1 := by omega
            show colsB idx = cols0 idx
            rw [hcolsB]
            simp only [h1, h2, if_false]
            exact hcols idx (by omega))
          (fun i hi => by have := hcapb (i + 1) (by simp; omega); omega)
          (fun i hi h => by
            have := hsome (i + 1) (by simp; omega) (by simpa using h)
            simpa [show n + (i + 1) + 1 = n + 1 + i + 1 from by omega] using this)
        rw [List.filter_cons_of_pos (by simpa using hidx0), keptSlotsFrom_cons,
          if_pos (by simpa using hidx0)]
        refine ⟨by rw [hr.1]; simp, hr.2.1, ?_, ?_, fun idx hidx =>
          hr.2.2.2.2 idx (by simp at hidx ⊢; omega)⟩
        · intro t ht
          have h0 := hr.2.2.1 t (by simp; omega)
          rw [h0]
          show colsB (t + 1) = st.cols (t + 1)
          rw [hcolsB]
          simp only [show ¬(t + 1 = st.out.length + 1) from by omega,
            show ¬(t + 1 = n + 1) from by omega, if_false]
        · intro t ht
          rcases t with _ | t'
          · have h0 := hr.2.2.1 st.out.length (by simp)
            rw [show st.out.length + 0 + 1 = st.out.length + 1 from by omega, h0]
            show colsB (st.out.length + 1) = cols0 ((n :: keptSlotsFrom (n + 1)
              rest').getD 0 0 + 1)
            rw [hcolsB]
            simp only [if_pos rfl, List.getD_cons_zero]
            exact hcols (n + 1) (by omega)
          · have h2 := hr.2.2.2.1 t' (by simp at ht ⊢; omega)
            simp only [List.getD_cons_succ]
            rw [show st.out.length + (t' + 1) + 1 =
              (⟨st.out ++ [tb], colsB, st.cap⟩ : CompactState).out.length + t' + 1
              from by simp; omega]
            exact h2

/-- **C8.**  After the compaction tail of `fmp_discover_all_metadata`
(run on any metadata satisfying the discovery invariants: capacity
covers every table slot, and every nonzero-index table has a column
array at its key), the table list retains exactly the entries with
nonzero index in their original order; each column array retains exactly
the columns of nonzero index, in their original relative order with
their original stored fields; and the columns map is re-keyed so that
the compacted table at position `t` (1.._N_) maps to the compacted
column array of the table originally at the `t`-th kept slot. -/
theorem c8_metadata_compaction (m : FmpMetadata)
    (hcap : ∀ i, i < m.tables.length → i + 1 < m.columnsCapacity)
    (hcols : ∀ i, i < m.tables.length →
      (m.tables.getD i ⟨0, [], false⟩).index ≠ 0 →
      (m.columns (i + 1)).isSome = true) :
    (fmpCompactMetadata m).tables = m.tables.filter (fun tb => tb.index ≠ 0) ∧
    (∀ l, compactColumnsArray l = l.filter (fun c => c.index ≠ 0)) ∧
    (∀ t, t < (fmpCompactMetadata m).tables.length →
      (fmpCompactMetadata m).columns (t + 1) =
        (m.columns ((keptSlots m.tables).getD t 0 + 1)).map compactColumnsArray) := by
  have hfold := compactTables_fold m.columnsCapacity m.columns m.tables 0
    ⟨[], m.columns, m.columnsCapacity⟩ rfl (by simp) (fun idx _ => rfl)
    (fun i hi => by have := hcap i hi; omega)
    (fun i hi h => by
      have := hcols i hi h
      simpa [show (0 : Nat) + i + 1 = i + 1 from by omega] using this)
  have htab : (compactTables m).tables =
      m.tables.filter (fun tb => tb.index ≠ 0) := by
    have h1 := hfold.1
    simpa using h1
  have hcapeq : (compactTables m).columnsCapacity = m.columnsCapacity := hfold.2.1
  have hkey : ∀ t, t < (m.tables.filter (fun tb => tb.index ≠ 0)).length →
      (compactTables m).columns (t + 1) =
        m.columns ((keptSlots m.tables).getD t 0 + 1) := by
    intro t ht
    have h1 := hfold.2.2.2.1 t ht
    simpa [keptSlots, show (0 : Nat) + t + 1 = t + 1 from by omega] using h1
  have hN : (compactTables m).tables.length =
      (m.tables.filter (fun tb => tb.index ≠ 0)).length := by rw [htab]
  have hNle : (m.tables.filter (fun tb => tb.index ≠ 0)).length ≤
      m.tables.length := List.length_filter_le _ _
  have hspec := compactColumnsMapsAux_spec (compactTables m).columnsCapacity
    (compactTables m).tables.length (compactTables m).tables.length 1
    (compactTables m).columns
    (fun j h1 h2 => by
      constructor
      · omega
      · rw [hcapeq]
        have hjb : j - 1 < m.tables.length := by omega
        have := hcap (j - 1) hjb
        omega)
  refine ⟨htab, compactColumnsArray_eq_filter, fun t ht => ?_⟩
  have ht2 : t + 1 < 1 + (compactTables m).tables.length := by
    have : (fmpCompactMetadata m).tables.length = (compactTables m).tables.length :=
      rfl
    omega
  have h3 : (fmpCompactMetadata m).columns (t + 1) =
      ((compactTables m).columns (t + 1)).map compactColumnsArray :=
    hspec.1 (t + 1) (by omega) ht2
  rw [h3, hkey t (by
    have : (fmpCompactMetadata m).tables.length = (compactTables m).tables.length :=
      rfl
    omega)]

set_option maxRecDepth 40000 in
/-- Witness for C8: a metadata value with a hole at slot 0, one table of
index 2, and a 128-slot column array with nonzero indices {1, 2, 5, 128};
the theorem shows compaction keeps exactly the nonzero entries and
re-keys the columns map to the compacted position. -/
theorem c8_metadata_compaction_witness :
    (fmpCompactMetadata demoMeta).tables =
      demoMeta.tables.filter (fun tb => tb.index ≠ 0) ∧
    (∀ l, compactColumnsArray l = l.filter (fun c => c.index ≠ 0)) ∧
    (∀ t, t < (fmpCompactMetadata demoMeta).tables.length →
      (fmpCompactMetadata demoMeta).columns (t + 1) =
        (demoMeta.columns ((keptSlots demoMeta.tables).getD t 0 + 1)).map
          compactColumnsArray) :=
  c8_metadata_compaction demoMeta (by decide) (by decide)

end Fmp
